import Mathlib

/-!
# Verification of the ironworks synchronization core

A shallow embedding, in Lean 4, of the core of the `ironworks` tool
(`src/command.rs`, `src/main.rs`, `src/steam_webapi_client.rs`,
`src/schemas.rs`, `src/error.rs`), together with theorems settling the
specification claims about it.

Modelling conventions:
* Pure Rust functions become Lean functions over the same data.
* Effectful collaborators (the filesystem, the SHA-256 digest from the
  `ring` crate, base64 encoding, `str::to_lowercase`, the external
  `steamcmd` helper process, and the Steam metadata service) are passed in
  as explicit function parameters ("oracles"), so every definition stays
  executable and every run of the embedded code is a function of those
  parameters.
* The unbounded `loop` in the dependency resolver is embedded with an
  explicit fuel parameter returning `Option`; termination of the Rust loop
  is the theorem that some finite fuel suffices.
* `HashMap`s are embedded as association lists (`List (key × value)`)
  whose key set models `contains_key`; `HashSet` iteration is embedded as
  a duplicate-free list (`List.dedup`).
-/

namespace Ironworks

/-- Embeds `error.rs`: the `Error` enum. Payloads of foreign error types are
collapsed to strings; `WorkerExitCode` keeps its `u32` exit code as a `Nat`. -/
inductive Error where
  | Internal (msg : String)
  | MissingWebApiKey
  | NotInitialised
  | WorkerExitCode (code : Nat)
  | Conpty (msg : String)
  | Curl (msg : String)
  | FsExtra (msg : String)
  | Io (msg : String)
  | Jomini (msg : String)
  | Json (msg : String)
  | Reqwest (msg : String)
  | TomlDe (msg : String)
  | TomlSer (msg : String)
  | Zip (msg : String)
deriving DecidableEq, Repr

/-- Embeds `schemas.rs`: the `Mod` struct (one manifest row). -/
structure Mod where
  id : String
  name : Option String
  checksum : Option String
deriving DecidableEq, Repr

/-- Embeds `schemas.rs`: the `PublishedFileChild` struct. -/
structure PublishedFileChild where
  publishedfileid : String
deriving DecidableEq, Repr

/-- Embeds `schemas.rs`: the `PublishedFileDetails` struct. -/
structure PublishedFileDetails where
  publishedfileid : String
  title : String
  time_updated : Int
  children : Option (List PublishedFileChild)
deriving DecidableEq, Repr

/-- Embeds `schemas.rs`: the untagged `GetPublishedFileDetailsResponseItem`
enum, with its two structurally discriminated shapes. -/
inductive GetPublishedFileDetailsResponseItem where
  | FileDetails (fd : PublishedFileDetails)
  | MissingItem (result : Int) (publishedfileid : String)
deriving DecidableEq, Repr

/-! ## Process supervisor (`command.rs`, `WorkerProcess`)

The OS process itself is a collaborator; `WorkerProcess::wait` is embedded as
a function of the outcome of `conpty::Process::wait` (an error, or the
collected exit code). The interrupt send to the reader thread has no
observable effect on the returned value (`let _ = ... send`), so it does not
appear in the embedding. -/

/-- Embeds `WorkerProcess::wait` (`command.rs` lines 402-411): propagate a
`proc.wait` error; exit code 0 succeeds; any other exit code fails with
`Error::WorkerExitCode` carrying the code. -/
def WorkerProcess.wait (procWait : Except Error Nat) : Except Error Unit :=
  match procWait with
  | .error e => .error e
  | .ok exit => if exit = 0 then .ok () else .error (.WorkerExitCode exit)

/-! ## Steam Web API client (`steam_webapi_client.rs`)

The HTTP transport and JSON parsing are collaborators; the embedded part is
the per-element mapping of an already-deserialized response list into
`(id, item)` pairs. The `panic!("bad deserialisation result")` arm is a
partial point of the mapping, embedded as `none`. -/

/-- Embeds the per-element closure inside `get_published_file_details`
(`steam_webapi_client.rs` lines 45-51): a `FileDetails` maps to its id; a
`MissingItem` maps to its id only when `result` is literally `9`; any other
`MissingItem` hits `panic!` (embedded as `none`). -/
def get_published_file_details_entry (d : GetPublishedFileDetailsResponseItem) :
    Option (String × GetPublishedFileDetailsResponseItem) :=
  match d with
  | .FileDetails fd => some (fd.publishedfileid, d)
  | .MissingItem 9 id => some (id, d)
  | _ => none

/-- Embeds the result-collection step of `get_published_file_details`
(`steam_webapi_client.rs` lines 44-52) applied to the parsed
`publishedfiledetails` list: every element is mapped through
`get_published_file_details_entry`, and the whole call panics (here: `none`)
as soon as one element does. -/
def get_published_file_details_collect
    (publishedfiledetails : List GetPublishedFileDetailsResponseItem) :
    Option (List (String × GetPublishedFileDetailsResponseItem)) :=
  publishedfiledetails.mapM get_published_file_details_entry

/-! ## Sorting model

Both `walkdir`'s `sort_by_file_name` and `Vec::sort_unstable_by_key` are
"sort by a comparison" collaborators; their contract is: the output is a
permutation of the input that is sorted under the comparison. They are
embedded as one insertion sort, and the contract is proved below. -/

/-- Insert `a` into `l` in front of the first element `b` with `le a b`. -/
def insertLe (le : α → α → Bool) (a : α) : List α → List α
  | [] => [a]
  | b :: l => if le a b then a :: b :: l else b :: insertLe le a l

/-- Insertion sort by a boolean comparison; models library sorts
(`sort_by_file_name`, `sort_unstable_by_key`), whose contract is
"sorted permutation of the input". -/
def sortLe (le : α → α → Bool) : List α → List α
  | [] => []
  | a :: l => insertLe le a (sortLe le l)

theorem insertLe_perm (le : α → α → Bool) (a : α) (l : List α) :
    (insertLe le a l).Perm (a :: l) := by
  induction l with
  | nil => simp [insertLe]
  | cons b l ih =>
    simp only [insertLe]
    by_cases h : le a b
    · simp [h]
    · simp only [h, if_neg]
      exact (ih.cons b).trans (List.Perm.swap a b l)

theorem sortLe_perm (le : α → α → Bool) (l : List α) : (sortLe le l).Perm l := by
  induction l with
  | nil => simp [sortLe]
  | cons a l ih =>
    exact (insertLe_perm le a (sortLe le l)).trans (ih.cons a)

theorem mem_insertLe {le : α → α → Bool} {a x : α} {l : List α} :
    x ∈ insertLe le a l ↔ x = a ∨ x ∈ l := by
  rw [(insertLe_perm le a l).mem_iff, List.mem_cons]

theorem mem_sortLe {le : α → α → Bool} {x : α} {l : List α} :
    x ∈ sortLe le l ↔ x ∈ l := (sortLe_perm le l).mem_iff

theorem pairwise_insertLe {le : α → α → Bool} {a : α} {l : List α}
    (htot : ∀ x y, le x y = true ∨ le y x = true)
    (htrans : ∀ x y z, le x y = true → le y z = true → le x z = true)
    (h : l.Pairwise (fun x y => le x y = true)) :
    (insertLe le a l).Pairwise (fun x y => le x y = true) := by
  induction l with
  | nil => simp [insertLe]
  | cons b l ih =>
    rcases List.pairwise_cons.mp h with ⟨hb, hl⟩
    simp only [insertLe]
    by_cases hab : le a b = true
    · simp only [hab, if_pos]
      refine List.pairwise_cons.mpr ⟨?_, h⟩
      intro x hx
      rcases List.mem_cons.mp hx with rfl | hx
      · exact hab
      · exact htrans a b x hab (hb x hx)
    · simp only [hab, if_neg]
      refine List.pairwise_cons.mpr ⟨?_, ih hl⟩
      intro x hx
      rcases mem_insertLe.mp hx with rfl | hx
      · rcases htot x b with hxb | hbx
        · exact absurd hxb hab
        · exact hbx
      · exact hb x hx

theorem pairwise_sortLe {le : α → α → Bool} {l : List α}
    (htot : ∀ x y, le x y = true ∨ le y x = true)
    (htrans : ∀ x y z, le x y = true → le y z = true → le x z = true) :
    (sortLe le l).Pairwise (fun x y => le x y = true) := by
  induction l with
  | nil => simp [sortLe]
  | cons a l ih => exact pairwise_insertLe htot htrans ih

/-- A library sort is canonical on inputs with pairwise-distinct keys: two
permuted inputs sort to the same list. Stated for a comparison that is the
decision procedure of a linear order composed with a key function. -/
theorem sortLe_eq_of_perm {β : Type _} [LinearOrder β] {key : α → β} {l₁ l₂ : List α}
    (hperm : l₁.Perm l₂) (hnd : (l₁.map key).Nodup) :
    sortLe (fun x y => decide (key x ≤ key y)) l₁ =
      sortLe (fun x y => decide (key x ≤ key y)) l₂ := by
  set le : α → α → Bool := fun x y => decide (key x ≤ key y) with hle
  have htot : ∀ x y, le x y = true ∨ le y x = true := by
    intro x y
    simp only [hle, decide_eq_true_eq]
    exact le_total (key x) (key y)
  have htrans : ∀ x y z, le x y = true → le y z = true → le x z = true := by
    intro x y z
    simp only [hle, decide_eq_true_eq]
    exact le_trans
  have hps : (sortLe le l₁).Perm (sortLe le l₂) :=
    ((sortLe_perm le l₁).trans hperm).trans (sortLe_perm le l₂).symm
  -- both sides are strictly sorted on keys, because keys are pairwise distinct
  have hstrict : ∀ l : List α, l.Perm l₁ →
      (sortLe le l).Pairwise (fun x y => key x < key y) := by
    intro l hl
    have hsorted := @pairwise_sortLe _ le l htot htrans
    have hnd' : ((sortLe le l).map key).Nodup := by
      have : (l.map key).Nodup := ((hl.map key).nodup_iff).mpr hnd
      exact ((sortLe_perm le l).map key).nodup_iff.mpr this
    have hne : (sortLe le l).Pairwise (fun x y => key x ≠ key y) :=
      List.pairwise_map.mp hnd'
    refine (hsorted.and hne).imp ?_
    intro x y hxy
    rcases hxy with ⟨hxy1, hxy2⟩
    simp only [hle, decide_eq_true_eq] at hxy1
    exact lt_of_le_of_ne hxy1 hxy2
  haveI : IsAntisymm α (fun x y => key x < key y) := ⟨by
    intro x y h1 h2
    exact absurd h2 (not_lt_of_gt h1)⟩
  exact List.eq_of_perm_of_sorted hps (hstrict l₁ (List.Perm.refl l₁))
    (hstrict l₂ hperm.symm)

/-! ## Content checksum engine (`command.rs`, `calculate_checksum`)

The filesystem is a collaborator: a directory tree is embedded as a rose
tree whose leaves are regular files. A file's byte content is
`Option (List Nat)`; `none` models a file for which `File::open` or a
subsequent `read` fails (the two skip arms of `calculate_checksum` behave
identically). A root that cannot be traversed at all (e.g. it does not
exist) is embedded as the root being `none`: `WalkDir` then yields a single
`Err` entry, which the `filter_map` in `calculate_checksum` drops.

`WalkDir::new(dir).sort_by_file_name()` yields the files of the tree in
depth-first order with the entries of every directory visited in file-name
order; this is embedded as a plain depth-first walk of the tree after
canonicalizing (name-sorting) every directory level. -/

/-- A directory tree. `file none` is a file whose open/read fails. -/
inductive FsTree where
  | file (content : Option (List Nat))
  | dir (entries : List (String × FsTree))

/-- `sort_by_file_name`: sort the entries of one directory level by name. -/
def sortEntries (es : List (String × FsTree)) : List (String × FsTree) :=
  sortLe (fun a b => decide (a.1 ≤ b.1)) es

mutual

/-- Name-sort every directory level of a tree. -/
def canon : FsTree → FsTree
  | .file c => .file c
  | .dir es => .dir (sortEntries (canonEntries es))

def canonEntries : List (String × FsTree) → List (String × FsTree)
  | [] => []
  | (n, t) :: rest => (n, canon t) :: canonEntries rest

end

mutual

/-- Depth-first list of the file contents of a tree, in tree order.
Applied after `canon`, this is the `WalkDir ... sort_by_file_name` file
enumeration order of `calculate_checksum` (directory entries themselves are
dropped by its `file_type().is_file()` test). -/
def plainWalk : FsTree → List (Option (List Nat))
  | .file c => [c]
  | .dir es => plainWalkEntries es

def plainWalkEntries : List (String × FsTree) → List (Option (List Nat))
  | [] => []
  | (_, t) :: rest => plainWalk t ++ plainWalkEntries rest

end

mutual

/-- Well-formedness of a tree as a real filesystem tree: sibling names are
distinct at every directory level. -/
def wellFormed : FsTree → Prop
  | .file _ => True
  | .dir es => (es.map Prod.fst).Nodup ∧ wfEntries es

def wfEntries : List (String × FsTree) → Prop
  | [] => True
  | (_, t) :: rest => wellFormed t ∧ wfEntries rest

end

mutual

/-- Two trees hold identical (name, content) file sets: at every directory
level the entry lists agree up to order (files created in any order,
enumerated by the filesystem in any order). -/
inductive FsEquiv : FsTree → FsTree → Prop where
  | file (c : Option (List Nat)) : FsEquiv (.file c) (.file c)
  | dir {es₁ es₂ es₂' : List (String × FsTree)} :
      EntriesRel es₁ es₂' → es₂'.Perm es₂ → FsEquiv (.dir es₁) (.dir es₂)

/-- Pointwise: same names, equivalent subtrees. -/
inductive EntriesRel : List (String × FsTree) → List (String × FsTree) → Prop where
  | nil : EntriesRel [] []
  | cons {n : String} {t₁ t₂ : FsTree} {l₁ l₂ : List (String × FsTree)} :
      FsEquiv t₁ t₂ → EntriesRel l₁ l₂ → EntriesRel ((n, t₁) :: l₁) ((n, t₂) :: l₂)

end

/-- Embeds `sha256digest` (`command.rs` lines 317-328): digest the bytes
pulled from a reader, failing when a read fails. The hash itself (`ring`'s
SHA-256) is the collaborator `h`. A reader is embedded as its byte content,
`none` when reading fails; reading from an in-memory slice never fails. -/
def sha256digest (h : List Nat → List Nat) (reader : Option (List Nat)) :
    Except Error (List Nat) :=
  match reader with
  | some bytes => .ok (h bytes)
  | none => .error (.Io "read error")

/-- Embeds `calculate_checksum` (`command.rs` lines 292-315), algorithm
`b64(SHA256(concat(map(SHA256, [file_contents]))))`:
walk all regular files under the root in name-sorted depth-first order
(`Err` walk entries — including the one produced by an untraversable root —
are dropped by the `if let Ok(e)` filter); hash each file's contents,
skipping files whose open or read fails; concatenate the per-file digests;
hash that buffer (an in-memory slice: this read cannot fail) and base64 it.
`h` is the SHA-256 collaborator and `b64` the base64 encoder. -/
def calculate_checksum (h : List Nat → List Nat) (b64 : List Nat → String)
    (root : Option FsTree) : Except Error String :=
  let files : List (Option (List Nat)) :=
    match root with
    | none => []
    | some t => plainWalk (canon t)
  let all_digests : List Nat :=
    (files.filterMap (fun contents =>
      match sha256digest h contents with
      | .ok digest => some digest
      | .error _ => none)).flatten
  match sha256digest h (some all_digests) with
  | .ok overall_digest => .ok (b64 overall_digest)
  | .error e => .error e

/-- Embeds `calculate_local_checksum` (`command.rs` lines 51-59). The
managed collection directory is the collaborator `collection`, mapping a
workshop item id to the tree of its local folder (`none` when
`local_dir.is_dir()` is false). -/
def calculate_local_checksum (h : List Nat → List Nat) (b64 : List Nat → String)
    (collection : String → Option FsTree) (workshop_item_id : String) :
    Except Error (Option String) :=
  match collection workshop_item_id with
  | some tree => (calculate_checksum h b64 (some tree)).map some
  | none => .ok none

/-! ### Checksum engine lemmas -/

/-- Structural induction for the nested inductive `FsTree`. -/
def FsTree.inductionOn {motive : FsTree → Prop}
    (hfile : ∀ c, motive (.file c))
    (hdir : ∀ es, (∀ p ∈ es, motive p.2) → motive (.dir es)) :
    ∀ t, motive t
  | .file c => hfile c
  | .dir es => hdir es (fun p hp =>
      have : sizeOf p.2 < 1 + sizeOf es := by
        have h1 := List.sizeOf_lt_of_mem hp
        rcases p with ⟨n, t⟩
        simp only [Prod.mk.sizeOf_spec] at h1
        dsimp only
        omega
      FsTree.inductionOn hfile hdir p.2)
termination_by t => sizeOf t

theorem canonEntries_eq_map (l : List (String × FsTree)) :
    canonEntries l = l.map (fun nt => (nt.1, canon nt.2)) := by
  induction l with
  | nil => simp [canonEntries]
  | cons p rest ih =>
    rcases p with ⟨n, t⟩
    simp [canonEntries, ih]

theorem map_fst_canonEntries (l : List (String × FsTree)) :
    (canonEntries l).map Prod.fst = l.map Prod.fst := by
  simp [canonEntries_eq_map]

theorem wfEntries_mem {l : List (String × FsTree)} (h : wfEntries l) :
    ∀ p ∈ l, wellFormed p.2 := by
  induction l with
  | nil => intro p hp; cases hp
  | cons q rest ih =>
    rcases q with ⟨n, t⟩
    rw [wfEntries] at h
    intro p hp
    rcases List.mem_cons.mp hp with rfl | hp
    · exact h.1
    · exact ih h.2 p hp

theorem entriesRel_map_fst :
    ∀ {l₁ l₂ : List (String × FsTree)}, EntriesRel l₁ l₂ →
      l₁.map Prod.fst = l₂.map Prod.fst := by
  intro l₁
  induction l₁ with
  | nil =>
    intro l₂ h
    cases h
    rfl
  | cons p rest ih =>
    intro l₂ h
    cases h with
    | cons hfe hrest => simp [ih hrest]

theorem canonEntries_eq_of_rel :
    ∀ (l₁ l₂ : List (String × FsTree)), EntriesRel l₁ l₂ →
      (∀ p ∈ l₁, wellFormed p.2 → ∀ u, FsEquiv p.2 u → canon p.2 = canon u) →
      (∀ p ∈ l₁, wellFormed p.2) →
      canonEntries l₁ = canonEntries l₂ := by
  intro l₁
  induction l₁ with
  | nil =>
    intro l₂ h _ _
    cases h
    rfl
  | cons p rest ih =>
    intro l₂ h hcanon hwf
    cases h with
    | cons hfe hrest =>
      rename_i n t₁ t₂ l₂'
      rw [canonEntries, canonEntries]
      have h1 : canon t₁ = canon t₂ :=
        hcanon (n, t₁) (List.mem_cons_self _ _) (hwf (n, t₁) (List.mem_cons_self _ _)) t₂ hfe
      have h2 : canonEntries rest = canonEntries l₂' :=
        ih l₂' hrest (fun q hq => hcanon q (List.mem_cons_of_mem _ hq))
          (fun q hq => hwf q (List.mem_cons_of_mem _ hq))
      rw [h1, h2]

/-- Name-sorted canonicalization does not distinguish equivalent well-formed
trees: this is why `calculate_checksum` is independent of creation and
enumeration order. -/
theorem canon_eq_of_equiv :
    ∀ t₁, wellFormed t₁ → ∀ t₂, FsEquiv t₁ t₂ → canon t₁ = canon t₂ := by
  intro t₁
  induction t₁ using FsTree.inductionOn with
  | hfile c =>
    intro _ t₂ hequiv
    cases hequiv
    rfl
  | hdir es₁ ih =>
    intro hwf t₂ hequiv
    cases hequiv with
    | dir hrel hperm =>
      rename_i es₂ es₂'
      rw [wellFormed] at hwf
      -- pointwise equal after canonicalizing each related subtree
      have hpt : canonEntries es₁ = canonEntries es₂' :=
        canonEntries_eq_of_rel es₁ es₂' hrel ih (wfEntries_mem hwf.2)
      have hpm : (canonEntries es₂').Perm (canonEntries es₂) := by
        rw [canonEntries_eq_map, canonEntries_eq_map]
        exact hperm.map _
      rw [canon, canon, sortEntries, sortEntries]
      have hnd : ((canonEntries es₁).map Prod.fst).Nodup := by
        rw [map_fst_canonEntries]
        exact hwf.1
      have := @sortLe_eq_of_perm _ _ _ Prod.fst _ _ (hpt ▸ hpm) hnd
      rw [this]

theorem plainWalkEntries_append (l₁ l₂ : List (String × FsTree)) :
    plainWalkEntries (l₁ ++ l₂) = plainWalkEntries l₁ ++ plainWalkEntries l₂ := by
  induction l₁ with
  | nil => simp [plainWalkEntries]
  | cons p rest ih =>
    rcases p with ⟨n, t⟩
    simp [plainWalkEntries, ih]

theorem insertLe_split (le : α → α → Bool) (a : α) (l : List α) :
    ∃ l₁ l₂, insertLe le a l = l₁ ++ a :: l₂ ∧ l = l₁ ++ l₂ := by
  induction l with
  | nil => exact ⟨[], [], rfl, rfl⟩
  | cons b l ih =>
    by_cases h : le a b
    · exact ⟨[], b :: l, by simp [insertLe, h], rfl⟩
    · rcases ih with ⟨l₁, l₂, h1, h2⟩
      exact ⟨b :: l₁, l₂, by simp [insertLe, h, h1], by simp [h2]⟩

theorem sortEntries_cons (a : String × FsTree) (l : List (String × FsTree)) :
    sortEntries (a :: l) = insertLe (fun x y => decide (x.1 ≤ y.1)) a (sortEntries l) := rfl

/-! ### Claims C3 and C4: checksum engine -/

/-- Claim C3, counterexample: the claim says the directory checksum
computation fails with an I/O error if the root path cannot be traversed.
It does not: an untraversable root (here `none`; `WalkDir` yields one `Err`
entry, which `calculate_checksum`'s `if let Ok(e)` filter silently drops)
produces the digest of an empty buffer, an `Ok` result. -/
theorem claim_C3_counterexample :
    calculate_checksum (fun l => l) (fun _ => "EMPTYDIGEST") none =
      .ok "EMPTYDIGEST" := rfl

/-- Claim C3, amended: `calculate_checksum` never returns an error — not
even when the root itself cannot be traversed, in which case it returns the
digest of the empty buffer; and every per-file open/read failure is skipped
non-fatally: a directory with an extra unreadable file hashes exactly like
the directory without that file. -/
theorem claim_C3_checksum_never_fails :
    (∀ (h : List Nat → List Nat) (b64 : List Nat → String),
        calculate_checksum h b64 none = .ok (b64 (h []))) ∧
    (∀ (h : List Nat → List Nat) (b64 : List Nat → String) (root : Option FsTree),
        ∃ s, calculate_checksum h b64 root = .ok s) ∧
    (∀ (h : List Nat → List Nat) (b64 : List Nat → String) (n : String)
        (es : List (String × FsTree)),
        calculate_checksum h b64 (some (.dir ((n, .file none) :: es))) =
          calculate_checksum h b64 (some (.dir es))) := by
  refine ⟨fun h b64 => rfl, fun h b64 root => ⟨_, rfl⟩, ?_⟩
  intro h b64 n es
  rcases insertLe_split (α := String × FsTree) (fun x y => decide (x.1 ≤ y.1))
      (n, FsTree.file none) (sortEntries (canonEntries es)) with ⟨l₁, l₂, h1, h2⟩
  have hL : plainWalk (canon (FsTree.dir ((n, .file none) :: es))) =
      plainWalkEntries l₁ ++ none :: plainWalkEntries l₂ := by
    simp only [canon, canonEntries, sortEntries_cons, h1, plainWalk,
      plainWalkEntries_append, plainWalkEntries, List.singleton_append]
  have hR : plainWalk (canon (FsTree.dir es)) =
      plainWalkEntries l₁ ++ plainWalkEntries l₂ := by
    simp only [canon, plainWalk]
    rw [show sortEntries (canonEntries es) = l₁ ++ l₂ from h2,
      plainWalkEntries_append]
  simp only [calculate_checksum, hL, hR, List.filterMap_append, List.filterMap_cons,
    sha256digest, List.flatten_append]

/-- Claim C4: the checksum of a well-formed directory tree is a pure
function of its (name, content) file sets: any two trees whose directory
levels agree up to order produce the same digest (for every hash and base64
collaborator), and the empty directory yields the base64-encoded hash of an
empty buffer. -/
theorem claim_C4_checksum_pure :
    (∀ (h : List Nat → List Nat) (b64 : List Nat → String) (t₁ t₂ : FsTree),
        wellFormed t₁ → FsEquiv t₁ t₂ →
        calculate_checksum h b64 (some t₁) = calculate_checksum h b64 (some t₂)) ∧
    (∀ (h : List Nat → List Nat) (b64 : List Nat → String),
        calculate_checksum h b64 (some (.dir [])) = .ok (b64 (h []))) := by
  constructor
  · intro h b64 t₁ t₂ hwf hequiv
    have hc : canon t₁ = canon t₂ := canon_eq_of_equiv t₁ hwf t₂ hequiv
    simp only [calculate_checksum, hc]
  · intro h b64
    simp only [calculate_checksum, canon, canonEntries, sortEntries, sortLe,
      plainWalk, plainWalkEntries, sha256digest, List.filterMap_nil,
      List.flatten_nil]

/-- Claim C4, witness: two concrete two-file directories with the same
(name, content) entries listed in opposite creation order hash identically,
and the empty directory hashes to the base64 hash of the empty buffer. -/
theorem claim_C4_checksum_pure_witness :
    wellFormed (FsTree.dir [("a", .file (some [1])), ("b", .file (some [2]))]) ∧
    FsEquiv (FsTree.dir [("a", .file (some [1])), ("b", .file (some [2]))])
      (FsTree.dir [("b", .file (some [2])), ("a", .file (some [1]))]) ∧
    calculate_checksum (fun l => 0 :: l) (fun l => toString l)
        (some (FsTree.dir [("a", .file (some [1])), ("b", .file (some [2]))])) =
      calculate_checksum (fun l => 0 :: l) (fun l => toString l)
        (some (FsTree.dir [("b", .file (some [2])), ("a", .file (some [1]))])) := by
  have hwf : wellFormed (FsTree.dir [("a", .file (some [1])), ("b", .file (some [2]))]) := by
    simp only [wellFormed, wfEntries, List.map]
    exact ⟨by decide, trivial, trivial, trivial⟩
  have hequiv : FsEquiv (FsTree.dir [("a", .file (some [1])), ("b", .file (some [2]))])
      (FsTree.dir [("b", .file (some [2])), ("a", .file (some [1]))]) :=
    FsEquiv.dir (EntriesRel.cons (FsEquiv.file _) (EntriesRel.cons (FsEquiv.file _) EntriesRel.nil))
      (List.Perm.swap ("b", FsTree.file (some [2])) ("a", FsTree.file (some [1])) [])
  exact ⟨hwf, hequiv, claim_C4_checksum_pure.1 _ _ _ _ hwf hequiv⟩

/-! ### Claim C9: process supervisor wait -/

/-- Claim C9: for a spawned worker process, `wait` succeeds exactly when the
collected exit code is 0, and for every non-zero exit code `c` it fails with
an error carrying `c`. -/
theorem claim_C9_wait_exit_code :
    (∀ c : Nat, WorkerProcess.wait (.ok c) = .ok () ↔ c = 0) ∧
    (∀ c : Nat, c ≠ 0 →
      WorkerProcess.wait (.ok c) = .error (.WorkerExitCode c)) := by
  constructor
  · intro c
    by_cases hc : c = 0 <;> simp [WorkerProcess.wait, hc]
  · intro c hc
    simp [WorkerProcess.wait, hc]

/-- Claim C9, witness: a helper exiting with code 3 makes `wait` fail
carrying 3; exiting with code 0 succeeds. -/
theorem claim_C9_wait_exit_code_witness :
    WorkerProcess.wait (.ok 3) = .error (.WorkerExitCode 3) ∧
    WorkerProcess.wait (.ok 0) = .ok () :=
  ⟨claim_C9_wait_exit_code.2 3 (by decide), (claim_C9_wait_exit_code.1 0).mpr rfl⟩

/-! ### Claim C10: client response mapping is partial -/

/-- Claim C10: the per-element mapping of a metadata service response is
partial: a `FileDetails` element always maps to its id; a `MissingItem`
element is accepted exactly when its numeric result code is 9; any
`MissingItem` with a different code panics (`none`), and one such element
makes the whole collection call panic rather than return an error value. -/
theorem claim_C10_missing_item_result_code :
    (∀ (fd : PublishedFileDetails),
        get_published_file_details_entry (.FileDetails fd) =
          some (fd.publishedfileid, .FileDetails fd)) ∧
    (∀ (r : Int) (id : String),
        get_published_file_details_entry (.MissingItem r id) =
          if r = 9 then some (id, .MissingItem r id) else none) ∧
    (∀ (items : List GetPublishedFileDetailsResponseItem) (r : Int) (id : String),
        GetPublishedFileDetailsResponseItem.MissingItem r id ∈ items → r ≠ 9 →
        get_published_file_details_collect items = none) := by
  have hentry : ∀ (r : Int) (id : String),
      get_published_file_details_entry (.MissingItem r id) =
        if r = 9 then some (id, .MissingItem r id) else none := by
    intro r id
    by_cases hr : r = 9
    · subst hr
      simp [get_published_file_details_entry]
    · simp only [get_published_file_details_entry, if_neg hr]
      split
      · rename_i heq
        cases heq
      · rename_i heq
        cases heq
        exact absurd rfl hr
      · rfl
  refine ⟨fun fd => rfl, hentry, ?_⟩
  intro items
  induction items with
  | nil =>
    intro r id hmem
    cases hmem
  | cons x xs ih =>
    intro r id hmem hr9
    rw [get_published_file_details_collect, List.mapM_cons]
    rcases List.mem_cons.mp hmem with rfl | hmem
    · rw [hentry r id, if_neg hr9]
      rfl
    · cases hx : get_published_file_details_entry x with
      | none => rfl
      | some y =>
        have hxs := ih r id hmem hr9
        rw [get_published_file_details_collect] at hxs
        simp only [hx, hxs, Option.pure_def, Option.bind_eq_bind, Option.some_bind,
          Option.none_bind]

/-- Claim C10, witness: a concrete response holding a `MissingItem` with
result code 7 makes the collection call panic (`none`), while result code 9
is accepted. -/
theorem claim_C10_missing_item_result_code_witness :
    get_published_file_details_collect [.MissingItem 7 "42"] = none ∧
    get_published_file_details_entry (.MissingItem 9 "42") =
      some ("42", .MissingItem 9 "42") := by
  constructor
  · exact claim_C10_missing_item_result_code.2.2 [.MissingItem 7 "42"] 7 "42"
      (List.mem_singleton.mpr rfl) (by decide)
  · exact (claim_C10_missing_item_result_code.2.1 9 "42").trans (if_pos rfl)

/-! ## Dependency resolver (`command.rs`, `fetch_workshop_details_with_dependencies`)

The metadata service is the collaborator `svc : String → item`: the embedded
`get_published_file_details` call maps each requested id to its response
item (the Steam service answers every requested id with either full details
or a missing-item marker). `HashMap::extend` is embedded as list append —
re-inserted keys carry the same `svc`-value, so only key membership
(`contains_key`) matters. `HashSet` iteration order is embedded as the
canonical order in which ids were first collected, with `List.dedup` playing
the role of set deduplication; the claims proved below hold for the model's
enumeration order.

The `loop` is embedded with fuel (`fetchLoop`); alongside the result map the
embedding returns the *query trace*: the concatenation of all id chunks
passed to `get_published_file_details`, in call order (each round queries
exactly the chunks `chunksOf5 new_file_ids`, whose concatenation is
`new_file_ids`, see `chunksOf5_flatten`). -/

/-- `itertools`' `chunks(5)`: consecutive chunks of at most 5 elements. -/
def chunksOf5 : List α → List (List α)
  | [] => []
  | a :: b :: c :: d :: e :: rest => [a, b, c, d, e] :: chunksOf5 rest
  | l => [l]

/-- All child ids carried by one response item (empty for a `MissingItem`
or for details without a children list). -/
def childIdsOfItem : GetPublishedFileDetailsResponseItem → List String
  | .FileDetails fd =>
    match fd.children with
    | some cs => cs.map (fun c => c.publishedfileid)
    | none => []
  | .MissingItem _ _ => []

/-- Embeds the `new_child_ids` extraction chain (`command.rs` lines
194-205): from the values of a freshly fetched batch, keep `FileDetails`,
keep those with a children list, flatten the children, take their ids, and
drop ids already present as keys of `cached_file_details`. -/
def extract_new_child_ids (cached_file_details new_file_details :
    List (String × GetPublishedFileDetailsResponseItem)) : List String :=
  (((((new_file_details.map Prod.snd).filterMap (fun resp_item =>
        match resp_item with
        | .FileDetails fd => some fd
        | _ => none)).filter (fun d => d.children.isSome)).flatMap
          (fun d => d.children.getD [])).map (fun c => c.publishedfileid)).filter
    (fun id => !((cached_file_details.map Prod.fst).contains id))

/-- Embeds the body of `for chunk in &new_file_ids.iter().chunks(5)`
(`command.rs` lines 190-210): fetch the chunk, extract the currently
uncached child ids (against the cache *before* this batch is merged), then
merge the batch into the cache. -/
def process_chunk (svc : String → GetPublishedFileDetailsResponseItem)
    (cached_file_details : List (String × GetPublishedFileDetailsResponseItem))
    (chunk : List String) :
    List (String × GetPublishedFileDetailsResponseItem) × List String :=
  let new_file_details := chunk.map (fun id => (id, svc id))
  let new_child_ids := extract_new_child_ids cached_file_details new_file_details
  (cached_file_details ++ new_file_details, new_child_ids)

/-- Sequentially process the chunks of one round, accumulating the
`child_ids` set (as an ordered list, deduplicated at round end). -/
def process_chunks (svc : String → GetPublishedFileDetailsResponseItem) :
    List (List String) → List (String × GetPublishedFileDetailsResponseItem) →
    List String → List (String × GetPublishedFileDetailsResponseItem) × List String
  | [], cached_file_details, child_ids => (cached_file_details, child_ids)
  | chunk :: rest, cached_file_details, child_ids =>
    let step := process_chunk svc cached_file_details chunk
    process_chunks svc rest step.1 (child_ids ++ step.2)

/-- Embeds the `loop` of `fetch_workshop_details_with_dependencies`
(`command.rs` lines 182-214) with fuel, also returning the query trace
(every round queries its whole frontier, chunked by 5). -/
def fetchLoop (svc : String → GetPublishedFileDetailsResponseItem) :
    Nat → List (String × GetPublishedFileDetailsResponseItem) → List String →
    Option (List (String × GetPublishedFileDetailsResponseItem) × List String)
  | 0, _, _ => none
  | fuel + 1, cached_file_details, new_file_ids =>
    if new_file_ids.isEmpty then some (cached_file_details, [])
    else
      match fetchLoop svc fuel
          (process_chunks svc (chunksOf5 new_file_ids) cached_file_details []).1
          (process_chunks svc (chunksOf5 new_file_ids) cached_file_details []).2.dedup with
      | none => none
      | some (result, trace) => some (result, new_file_ids ++ trace)

/-- Embeds `fetch_workshop_details_with_dependencies` (`command.rs` lines
179-216): resolve the transitive dependency closure of `file_ids` (a
`HashSet`, hence deduplicated), returning the cached details and the query
trace. -/
def fetch_workshop_details_with_dependencies
    (svc : String → GetPublishedFileDetailsResponseItem) (fuel : Nat)
    (file_ids : List String) :
    Option (List (String × GetPublishedFileDetailsResponseItem) × List String) :=
  fetchLoop svc fuel [] file_ids.dedup

/-- `Reaches svc roots id`: `id` is reachable from the root set via child
references — the specification's "closure". -/
inductive Reaches (svc : String → GetPublishedFileDetailsResponseItem)
    (roots : List String) : String → Prop where
  | root {id : String} : id ∈ roots → Reaches svc roots id
  | child {parent cid : String} : Reaches svc roots parent →
      cid ∈ childIdsOfItem (svc parent) → Reaches svc roots cid

/-! ### Resolver lemmas -/

theorem chunksOf5_flatten (l : List α) : (chunksOf5 l).flatten = l := by
  induction l using chunksOf5.induct <;> simp [chunksOf5, *]

theorem contains_iff {l : List String} {a : String} :
    l.contains a = true ↔ a ∈ l := List.elem_iff

/-- The child-extraction chain is: all child ids of the batch's items,
filtered to the currently uncached ones. -/
theorem extract_new_child_ids_eq (cached new_fd :
    List (String × GetPublishedFileDetailsResponseItem)) :
    extract_new_child_ids cached new_fd =
      ((new_fd.map Prod.snd).flatMap childIdsOfItem).filter
        (fun id => !((cached.map Prod.fst).contains id)) := by
  rw [extract_new_child_ids]
  congr 1
  induction new_fd with
  | nil => rfl
  | cons p rest ih =>
    rcases p with ⟨k, v⟩
    cases v with
    | MissingItem r id =>
      simpa [childIdsOfItem] using ih
    | FileDetails fd =>
      cases hc : fd.children with
      | none =>
        simpa [childIdsOfItem, hc] using ih
      | some cs =>
        simpa [childIdsOfItem, hc] using ih

theorem process_chunks_fst (svc : String → GetPublishedFileDetailsResponseItem) :
    ∀ (cs : List (List String)) (cached : List (String × GetPublishedFileDetailsResponseItem))
      (acc : List String),
      (process_chunks svc cs cached acc).1 =
        cached ++ cs.flatten.map (fun id => (id, svc id)) := by
  intro cs
  induction cs with
  | nil => intro cached acc; simp [process_chunks]
  | cons chunk rest ih =>
    intro cached acc
    simp [process_chunks, process_chunk, ih, List.flatten_cons]

theorem mem_process_chunks_keys {svc : String → GetPublishedFileDetailsResponseItem}
    {cs : List (List String)} {cached : List (String × GetPublishedFileDetailsResponseItem)}
    {acc : List String} {x : String} :
    x ∈ (process_chunks svc cs cached acc).1.map Prod.fst ↔
      x ∈ cached.map Prod.fst ∨ x ∈ cs.flatten := by
  rw [process_chunks_fst]
  simp

theorem process_chunks_snd (svc : String → GetPublishedFileDetailsResponseItem) :
    ∀ (cs : List (List String)) (cached : List (String × GetPublishedFileDetailsResponseItem))
      (acc : List String),
      (process_chunks svc cs cached acc).2 = acc ++ (process_chunks svc cs cached []).2 := by
  intro cs
  induction cs with
  | nil => intro cached acc; simp [process_chunks]
  | cons chunk rest ih =>
    intro cached acc
    rw [process_chunks, process_chunks]
    rw [ih _ (acc ++ _), ih _ ([] ++ _)]
    simp

/-- An id collected as a child id during a round either was already in the
accumulator or is not a key of the round-start cache (every chunk filters
against a cache extending the round-start cache). -/
theorem mem_process_chunks_snd_not_cached
    {svc : String → GetPublishedFileDetailsResponseItem} :
    ∀ {cs : List (List String)} {cached : List (String × GetPublishedFileDetailsResponseItem)}
      {acc : List String} {x : String},
      x ∈ (process_chunks svc cs cached acc).2 →
      x ∈ acc ∨ x ∉ cached.map Prod.fst := by
  intro cs
  induction cs with
  | nil =>
    intro cached acc x hx
    exact Or.inl hx
  | cons chunk rest ih =>
    intro cached acc x hx
    rw [process_chunks] at hx
    rcases ih hx with hacc | hnotkey
    · rcases List.mem_append.mp hacc with h | h
      · exact Or.inl h
      · refine Or.inr ?_
        rw [process_chunk] at h
        simp only [extract_new_child_ids_eq] at h
        rcases List.mem_filter.mp h with ⟨_, hpred⟩
        intro hmem
        rw [Bool.not_eq_eq_eq_not, Bool.not_true] at hpred
        rw [contains_iff.mpr hmem] at hpred
        cases hpred
    · refine Or.inr ?_
      intro hmem
      apply hnotkey
      rw [process_chunk]
      simp only [List.map_append, List.mem_append]
      exact Or.inl hmem

/-- Every child id of an item fetched during a round ends up either as a key
of the round-end cache (it was already cached when its parent's chunk was
processed) or in the collected child-id accumulator. -/
theorem process_chunks_child_coverage
    {svc : String → GetPublishedFileDetailsResponseItem} :
    ∀ {cs : List (List String)} {cached : List (String × GetPublishedFileDetailsResponseItem)}
      {acc : List String} {p c : String},
      p ∈ cs.flatten → c ∈ childIdsOfItem (svc p) →
      c ∈ (process_chunks svc cs cached acc).1.map Prod.fst ∨
        c ∈ (process_chunks svc cs cached acc).2 := by
  intro cs
  induction cs with
  | nil =>
    intro cached acc p c hp
    simp at hp
  | cons chunk rest ih =>
    intro cached acc p c hp hc
    rw [List.flatten_cons, List.mem_append] at hp
    rw [process_chunks]
    rcases hp with hp | hp
    · -- the parent is in this chunk
      by_cases hcached : c ∈ cached.map Prod.fst
      · left
        rw [mem_process_chunks_keys]
        left
        rw [process_chunk]
        simp only [List.map_append, List.mem_append]
        exact Or.inl hcached
      · right
        rw [process_chunks_snd]
        refine List.mem_append.mpr (Or.inl (List.mem_append.mpr (Or.inr ?_)))
        rw [process_chunk]
        simp only [extract_new_child_ids_eq]
        refine List.mem_filter.mpr ⟨?_, ?_⟩
        · refine List.mem_flatMap.mpr ⟨svc p, ?_, hc⟩
          simp only [List.map_map, List.mem_map]
          exact ⟨p, hp, rfl⟩
        · simp only [Bool.not_eq_eq_eq_not, Bool.not_true]
          cases hcon : (cached.map Prod.fst).contains c
          · rfl
          · exact absurd (contains_iff.mp hcon) hcached
    · exact ih hp hc

/-- Every id collected as a child id during a round is a child of some item
fetched during the round (unless it was already in the accumulator). -/
theorem process_chunks_child_provenance
    {svc : String → GetPublishedFileDetailsResponseItem} :
    ∀ {cs : List (List String)} {cached : List (String × GetPublishedFileDetailsResponseItem)}
      {acc : List String} {x : String},
      x ∈ (process_chunks svc cs cached acc).2 →
      x ∈ acc ∨ ∃ p ∈ cs.flatten, x ∈ childIdsOfItem (svc p) := by
  intro cs
  induction cs with
  | nil =>
    intro cached acc x hx
    exact Or.inl hx
  | cons chunk rest ih =>
    intro cached acc x hx
    rw [process_chunks] at hx
    rcases ih hx with hacc | ⟨p, hp, hc⟩
    · rcases List.mem_append.mp hacc with h | h
      · exact Or.inl h
      · refine Or.inr ?_
        rw [process_chunk] at h
        simp only [extract_new_child_ids_eq] at h
        rcases List.mem_filter.mp h with ⟨hmem, _⟩
        rcases List.mem_flatMap.mp hmem with ⟨v, hv, hxv⟩
        simp only [List.map_map, List.mem_map] at hv
        rcases hv with ⟨p, hp, rfl⟩
        exact ⟨p, by simp [List.flatten_cons, hp], hxv⟩
    · exact Or.inr ⟨p, by simp only [List.flatten_cons, List.mem_append]; exact Or.inr hp, hc⟩

/-- An id that is a cache key when a loop round starts and is not in that
round's frontier is never queried again. -/
theorem fetchLoop_count_eq_zero {svc : String → GetPublishedFileDetailsResponseItem} :
    ∀ {fuel : Nat} {cached : List (String × GetPublishedFileDetailsResponseItem)}
      {frontier : List String}
      {result : List (String × GetPublishedFileDetailsResponseItem)}
      {trace : List String} {id : String},
      fetchLoop svc fuel cached frontier = some (result, trace) →
      id ∈ cached.map Prod.fst → id ∉ frontier →
      trace.count id = 0 := by
  intro fuel
  induction fuel with
  | zero =>
    intro cached frontier result trace id heq
    cases heq
  | succ fuel ih =>
    intro cached frontier result trace id heq hkey hnotfr
    rw [fetchLoop] at heq
    by_cases hemp : frontier.isEmpty
    · rw [if_pos hemp] at heq
      cases heq
      rfl
    · rw [if_neg hemp] at heq
      cases hrec : fetchLoop svc fuel
          (process_chunks svc (chunksOf5 frontier) cached []).1
          (process_chunks svc (chunksOf5 frontier) cached []).2.dedup with
      | none =>
        rw [hrec] at heq
        cases heq
      | some pr =>
        rcases pr with ⟨result', trace'⟩
        rw [hrec] at heq
        cases heq
        rw [List.count_append]
        have h1 : List.count id frontier = 0 := List.count_eq_zero_of_not_mem hnotfr
        have hkey' : id ∈ (process_chunks svc (chunksOf5 frontier) cached []).1.map Prod.fst :=
          mem_process_chunks_keys.mpr (Or.inl hkey)
        have hnotfr' : id ∉ (process_chunks svc (chunksOf5 frontier) cached []).2.dedup := by
          intro hmem
          rcases mem_process_chunks_snd_not_cached (List.mem_dedup.mp hmem) with h | h
          · cases h
          · exact h hkey
        have h2 := ih hrec hkey' hnotfr'
        omega

/-- An id that is a cache key when a loop round starts is queried at most
once more over the rest of the loop (it might still sit in the current
frontier). -/
theorem fetchLoop_count_le_one {svc : String → GetPublishedFileDetailsResponseItem} :
    ∀ {fuel : Nat} {cached : List (String × GetPublishedFileDetailsResponseItem)}
      {frontier : List String}
      {result : List (String × GetPublishedFileDetailsResponseItem)}
      {trace : List String} {id : String},
      fetchLoop svc fuel cached frontier = some (result, trace) →
      frontier.Nodup → id ∈ cached.map Prod.fst →
      trace.count id ≤ 1 := by
  intro fuel
  induction fuel with
  | zero =>
    intro cached frontier result trace id heq
    cases heq
  | succ fuel _ =>
    intro cached frontier result trace id heq hnd hkey
    rw [fetchLoop] at heq
    by_cases hemp : frontier.isEmpty
    · rw [if_pos hemp] at heq
      cases heq
      simp
    · rw [if_neg hemp] at heq
      cases hrec : fetchLoop svc fuel
          (process_chunks svc (chunksOf5 frontier) cached []).1
          (process_chunks svc (chunksOf5 frontier) cached []).2.dedup with
      | none =>
        rw [hrec] at heq
        cases heq
      | some pr =>
        rcases pr with ⟨result', trace'⟩
        rw [hrec] at heq
        cases heq
        rw [List.count_append]
        have h1 : List.count id frontier ≤ 1 := List.nodup_iff_count_le_one.mp hnd id
        have hkey' : id ∈ (process_chunks svc (chunksOf5 frontier) cached []).1.map Prod.fst :=
          mem_process_chunks_keys.mpr (Or.inl hkey)
        have hnotfr' : id ∉ (process_chunks svc (chunksOf5 frontier) cached []).2.dedup := by
          intro hmem
          rcases mem_process_chunks_snd_not_cached (List.mem_dedup.mp hmem) with h | h
          · cases h
          · exact h hkey
        have h2 := fetchLoop_count_eq_zero hrec hkey' hnotfr'
        omega

/-- Core bound: over one whole resolution loop, every id is queried at most
twice. -/
theorem fetchLoop_count_le_two {svc : String → GetPublishedFileDetailsResponseItem} :
    ∀ {fuel : Nat} {cached : List (String × GetPublishedFileDetailsResponseItem)}
      {frontier : List String}
      {result : List (String × GetPublishedFileDetailsResponseItem)}
      {trace : List String} {id : String},
      fetchLoop svc fuel cached frontier = some (result, trace) →
      frontier.Nodup →
      trace.count id ≤ 2 := by
  intro fuel
  induction fuel with
  | zero =>
    intro cached frontier result trace id heq
    cases heq
  | succ fuel ih =>
    intro cached frontier result trace id heq hnd
    rw [fetchLoop] at heq
    by_cases hemp : frontier.isEmpty
    · rw [if_pos hemp] at heq
      cases heq
      simp
    · rw [if_neg hemp] at heq
      cases hrec : fetchLoop svc fuel
          (process_chunks svc (chunksOf5 frontier) cached []).1
          (process_chunks svc (chunksOf5 frontier) cached []).2.dedup with
      | none =>
        rw [hrec] at heq
        cases heq
      | some pr =>
        rcases pr with ⟨result', trace'⟩
        rw [hrec] at heq
        cases heq
        rw [List.count_append]
        have h1 : List.count id frontier ≤ 1 := List.nodup_iff_count_le_one.mp hnd id
        by_cases hidfr : id ∈ frontier
        · have hkey' : id ∈ (process_chunks svc (chunksOf5 frontier) cached []).1.map Prod.fst := by
            refine mem_process_chunks_keys.mpr (Or.inr ?_)
            rw [chunksOf5_flatten]
            exact hidfr
          have h2 := fetchLoop_count_le_one hrec (List.nodup_dedup _) hkey'
          omega
        · have h1' : List.count id frontier = 0 := List.count_eq_zero_of_not_mem hidfr
          have h2 := @ih _ _ _ _ id hrec (List.nodup_dedup _)
          omega

/-! ### Resolver termination and closure correctness -/

/-- The key set of the cache, as a finite set. -/
def cacheKeys (cached : List (String × GetPublishedFileDetailsResponseItem)) :
    Finset String :=
  (cached.map Prod.fst).toFinset

/-- Termination measure of the resolver loop over a finite id universe `U`:
uncached ids count twice, cached ids still sitting in the frontier once. -/
def loopMeasure (U : Finset String)
    (cached : List (String × GetPublishedFileDetailsResponseItem))
    (frontier : List String) : Nat :=
  2 * (U \ cacheKeys cached).card + (frontier.toFinset ∩ cacheKeys cached).card

theorem cacheKeys_process_chunks (svc : String → GetPublishedFileDetailsResponseItem)
    (cs : List (List String)) (cached : List (String × GetPublishedFileDetailsResponseItem))
    (acc : List String) :
    cacheKeys (process_chunks svc cs cached acc).1 =
      cacheKeys cached ∪ cs.flatten.toFinset := by
  ext x
  simp only [cacheKeys, List.mem_toFinset, Finset.mem_union]
  exact mem_process_chunks_keys

/-- Each non-trivial round strictly decreases the loop measure. -/
theorem loopMeasure_decreases (svc : String → GetPublishedFileDetailsResponseItem)
    {U : Finset String} {cached : List (String × GetPublishedFileDetailsResponseItem)}
    {frontier : List String}
    (hne : frontier ≠ [])
    (hfU : ∀ x ∈ frontier, x ∈ U) :
    loopMeasure U (process_chunks svc (chunksOf5 frontier) cached []).1
        (process_chunks svc (chunksOf5 frontier) cached []).2.dedup <
      loopMeasure U cached frontier := by
  classical
  set K : Finset String := cacheKeys cached with hK
  set F : Finset String := frontier.toFinset with hF
  have hKeq : cacheKeys (process_chunks svc (chunksOf5 frontier) cached []).1 = K ∪ F := by
    rw [cacheKeys_process_chunks, chunksOf5_flatten]
  have hFU : F ⊆ U := by
    intro x hx
    exact hfU x (List.mem_toFinset.mp hx)
  have hAsub : F \ K ⊆ U \ K := by
    intro x hx
    rcases Finset.mem_sdiff.mp hx with ⟨hxF, hxK⟩
    exact Finset.mem_sdiff.mpr ⟨hFU hxF, hxK⟩
  have hUsd : U \ (K ∪ F) = (U \ K) \ (F \ K) := by
    ext x
    simp only [Finset.mem_sdiff, Finset.mem_union]
    tauto
  have hcard1 : (U \ (K ∪ F)).card = (U \ K).card - (F \ K).card := by
    rw [hUsd, Finset.card_sdiff hAsub]
  have hcard2 : (F \ K).card ≤ (U \ K).card := Finset.card_le_card hAsub
  -- cached-and-refetched part of the new frontier is contained in F \ K
  have hsub3 : (process_chunks svc (chunksOf5 frontier) cached []).2.dedup.toFinset ∩ (K ∪ F)
      ⊆ F \ K := by
    intro x hx
    rcases Finset.mem_inter.mp hx with ⟨hx1, hx2⟩
    have hxsnd : x ∈ (process_chunks svc (chunksOf5 frontier) cached []).2 :=
      List.mem_dedup.mp (List.mem_toFinset.mp hx1)
    have hxnotK : x ∉ cached.map Prod.fst := by
      rcases mem_process_chunks_snd_not_cached hxsnd with h | h
      · cases h
      · exact h
    have hxnotK' : x ∉ K := by
      intro hxK
      exact hxnotK (List.mem_toFinset.mp hxK)
    rcases Finset.mem_union.mp hx2 with hxK | hxF
    · exact absurd hxK hxnotK'
    · exact Finset.mem_sdiff.mpr ⟨hxF, hxnotK'⟩
  have hcard3 : ((process_chunks svc (chunksOf5 frontier) cached []).2.dedup.toFinset
      ∩ (K ∪ F)).card ≤ (F \ K).card := Finset.card_le_card hsub3
  have hFne : 1 ≤ F.card := by
    rcases frontier with _ | ⟨a, rest⟩
    · exact absurd rfl hne
    · refine Finset.card_pos.mpr ⟨a, ?_⟩
      rw [hF]
      exact List.mem_toFinset.mpr (List.mem_cons_self a rest)
  have hcardF : (F ∩ K).card + (F \ K).card = F.card :=
    Finset.card_inter_add_card_sdiff F K
  rw [loopMeasure, loopMeasure, hKeq, ← hK, ← hF, hcard1]
  omega

/-- The resolver loop halts (returns `some`) once the fuel exceeds the
measure: this is the termination of the Rust `loop`. -/
theorem fetchLoop_isSome {svc : String → GetPublishedFileDetailsResponseItem}
    {U : Finset String}
    (hclosed : ∀ id ∈ U, ∀ c ∈ childIdsOfItem (svc id), c ∈ U) :
    ∀ {fuel : Nat} {cached : List (String × GetPublishedFileDetailsResponseItem)}
      {frontier : List String},
      (∀ x ∈ frontier, x ∈ U) →
      loopMeasure U cached frontier < fuel →
      (fetchLoop svc fuel cached frontier).isSome := by
  intro fuel
  induction fuel with
  | zero =>
    intro cached frontier _ hlt
    cases hlt
  | succ fuel ih =>
    intro cached frontier hfU hlt
    rw [fetchLoop]
    by_cases hemp : frontier.isEmpty
    · rw [if_pos hemp]
      rfl
    · rw [if_neg hemp]
      have hne : frontier ≠ [] := by
        intro h
        rw [h] at hemp
        exact hemp rfl
      have hfU' : ∀ x ∈ (process_chunks svc (chunksOf5 frontier) cached []).2.dedup, x ∈ U := by
        intro x hx
        rcases process_chunks_child_provenance (List.mem_dedup.mp hx) with h | ⟨p, hp, hc⟩
        · cases h
        · rw [chunksOf5_flatten] at hp
          exact hclosed p (hfU p hp) x hc
      have hdec := @loopMeasure_decreases svc U cached frontier hne hfU
      have := @ih (process_chunks svc (chunksOf5 frontier) cached []).1
        (process_chunks svc (chunksOf5 frontier) cached []).2.dedup hfU' (by omega)
      cases hrec : fetchLoop svc fuel
          (process_chunks svc (chunksOf5 frontier) cached []).1
          (process_chunks svc (chunksOf5 frontier) cached []).2.dedup with
      | none =>
        rw [hrec] at this
        cases this
      | some pr =>
        rcases pr with ⟨result, trace⟩
        rfl

/-- Loop invariant: on success, (a) every round-start key and frontier id is
a result key, (b) the result key set is closed under child references, and
(c) every result key is reachable. -/
theorem fetchLoop_correct {svc : String → GetPublishedFileDetailsResponseItem}
    {roots : List String} :
    ∀ {fuel : Nat} {cached : List (String × GetPublishedFileDetailsResponseItem)}
      {frontier : List String}
      {result : List (String × GetPublishedFileDetailsResponseItem)}
      {trace : List String},
      fetchLoop svc fuel cached frontier = some (result, trace) →
      (∀ k ∈ cached.map Prod.fst, Reaches svc roots k) →
      (∀ k ∈ frontier, Reaches svc roots k) →
      (∀ k ∈ cached.map Prod.fst, ∀ c ∈ childIdsOfItem (svc k),
        c ∈ cached.map Prod.fst ∨ c ∈ frontier) →
      (∀ x, (x ∈ cached.map Prod.fst ∨ x ∈ frontier) → x ∈ result.map Prod.fst) ∧
      (∀ k ∈ result.map Prod.fst, ∀ c ∈ childIdsOfItem (svc k),
        c ∈ result.map Prod.fst) ∧
      (∀ k ∈ result.map Prod.fst, Reaches svc roots k) := by
  intro fuel
  induction fuel with
  | zero =>
    intro cached frontier result trace heq
    cases heq
  | succ fuel ih =>
    intro cached frontier result trace heq h1 h2 h3
    rw [fetchLoop] at heq
    by_cases hemp : frontier.isEmpty
    · rw [if_pos hemp] at heq
      cases heq
      have hfr : frontier = [] := List.isEmpty_iff.mp hemp
      subst hfr
      refine ⟨?_, ?_, h1⟩
      · intro x hx
        rcases hx with hx | hx
        · exact hx
        · cases hx
      · intro k hk c hc
        rcases h3 k hk c hc with h | h
        · exact h
        · cases h
    · rw [if_neg hemp] at heq
      cases hrec : fetchLoop svc fuel
          (process_chunks svc (chunksOf5 frontier) cached []).1
          (process_chunks svc (chunksOf5 frontier) cached []).2.dedup with
      | none =>
        rw [hrec] at heq
        cases heq
      | some pr =>
        rcases pr with ⟨result', trace'⟩
        rw [hrec] at heq
        cases heq
        have hkeys : ∀ x, x ∈ (process_chunks svc (chunksOf5 frontier) cached []).1.map Prod.fst
            ↔ (x ∈ cached.map Prod.fst ∨ x ∈ frontier) := by
          intro x
          rw [mem_process_chunks_keys, chunksOf5_flatten]
        have h1' : ∀ k ∈ (process_chunks svc (chunksOf5 frontier) cached []).1.map Prod.fst,
            Reaches svc roots k := by
          intro k hk
          rcases (hkeys k).mp hk with h | h
          · exact h1 k h
          · exact h2 k h
        have h2' : ∀ k ∈ (process_chunks svc (chunksOf5 frontier) cached []).2.dedup,
            Reaches svc roots k := by
          intro k hk
          rcases process_chunks_child_provenance (List.mem_dedup.mp hk) with h | ⟨p, hp, hc⟩
          · cases h
          · rw [chunksOf5_flatten] at hp
            exact Reaches.child (h2 p hp) hc
        have h3' : ∀ k ∈ (process_chunks svc (chunksOf5 frontier) cached []).1.map Prod.fst,
            ∀ c ∈ childIdsOfItem (svc k),
            c ∈ (process_chunks svc (chunksOf5 frontier) cached []).1.map Prod.fst ∨
              c ∈ (process_chunks svc (chunksOf5 frontier) cached []).2.dedup := by
          intro k hk c hc
          rcases (hkeys k).mp hk with h | h
          · rcases h3 k h c hc with hcK | hcF
            · exact Or.inl ((hkeys c).mpr (Or.inl hcK))
            · exact Or.inl ((hkeys c).mpr (Or.inr hcF))
          · have hp : k ∈ (chunksOf5 frontier).flatten := by
              rw [chunksOf5_flatten]
              exact h
            rcases process_chunks_child_coverage hp hc with hcK | hcS
            · exact Or.inl hcK
            · exact Or.inr (List.mem_dedup.mpr hcS)
        rcases ih hrec h1' h2' h3' with ⟨ha, hb, hc⟩
        refine ⟨?_, hb, hc⟩
        intro x hx
        exact ha x (Or.inl ((hkeys x).mpr hx))

/-! ### Claims C1 and C5: dependency resolver -/

/-- A one-node metadata graph whose single item lists itself as a child. -/
def svcSelfLoop : String → GetPublishedFileDetailsResponseItem := fun _ =>
  .FileDetails { publishedfileid := "A", title := "Mod A", time_updated := 0,
                 children := some [{ publishedfileid := "A" }] }

/-- A two-node metadata graph with the reference cycle A→B→A. -/
def svcAB : String → GetPublishedFileDetailsResponseItem := fun id =>
  if id = "A" then
    .FileDetails { publishedfileid := "A", title := "Mod A", time_updated := 0,
                   children := some [{ publishedfileid := "B" }] }
  else if id = "B" then
    .FileDetails { publishedfileid := "B", title := "Mod B", time_updated := 0,
                   children := some [{ publishedfileid := "A" }] }
  else .MissingItem 9 id

/-- Claim C1, counterexample: the claim says each id is queried at most once
per resolution call. It is not: for the self-loop graph, resolving from root
{A} queries "A" twice — in the round that fetches A, A's child list is
extracted *before* the batch is merged into the cache, so A (uncached at
that instant) is collected as a new child id and re-fetched next round. -/
theorem claim_C1_counterexample :
    fetch_workshop_details_with_dependencies svcSelfLoop 3 ["A"] =
      some ([("A", svcSelfLoop "A"), ("A", svcSelfLoop "A")], ["A", "A"]) ∧
    List.count "A" ["A", "A"] = 2 := by
  constructor
  · rfl
  · rfl

/-- Claim C1, amended: each id is passed to the metadata fetch at most
*twice* over the life of a single resolution call. (A second fetch can only
happen when an id is collected as a child in the same round in which it is
first fetched, because child ids are extracted before the batch results are
merged into the cache; once an id is cached at a round start it is never
queried again.) -/
theorem claim_C1_fetch_at_most_twice
    (svc : String → GetPublishedFileDetailsResponseItem) (fuel : Nat)
    (file_ids : List String)
    (result : List (String × GetPublishedFileDetailsResponseItem))
    (trace : List String) (id : String)
    (heq : fetch_workshop_details_with_dependencies svc fuel file_ids =
      some (result, trace)) :
    trace.count id ≤ 2 :=
  fetchLoop_count_le_two heq (List.nodup_dedup file_ids)

/-- Claim C1, witness: the self-loop resolution queries "A" exactly twice,
within the proved bound. -/
theorem claim_C1_fetch_at_most_twice_witness :
    fetch_workshop_details_with_dependencies svcSelfLoop 3 ["A"] =
      some ([("A", svcSelfLoop "A"), ("A", svcSelfLoop "A")], ["A", "A"]) ∧
    List.count "A" ["A", "A"] ≤ 2 :=
  ⟨rfl, claim_C1_fetch_at_most_twice svcSelfLoop 3 ["A"]
    [("A", svcSelfLoop "A"), ("A", svcSelfLoop "A")] ["A", "A"] "A" rfl⟩

/-- Claim C5: for every metadata graph with a finite id universe `U` closed
under child references — reference cycles allowed — the closure resolution
loop terminates within fuel `2·|U| + 1` rounds, and the key set of the
returned map is exactly the set of ids reachable from the roots via child
references. -/
theorem claim_C5_closure_terminates_and_is_reachable_set
    (svc : String → GetPublishedFileDetailsResponseItem) (file_ids : List String)
    (U : Finset String)
    (hroots : ∀ x ∈ file_ids, x ∈ U)
    (hclosed : ∀ id ∈ U, ∀ c ∈ childIdsOfItem (svc id), c ∈ U) :
    ∃ result trace,
      fetch_workshop_details_with_dependencies svc (2 * U.card + 1) file_ids =
        some (result, trace) ∧
      ∀ k, k ∈ result.map Prod.fst ↔ Reaches svc file_ids k := by
  have hfU : ∀ x ∈ file_ids.dedup, x ∈ U := by
    intro x hx
    exact hroots x (List.mem_dedup.mp hx)
  have hmeas : loopMeasure U [] file_ids.dedup < 2 * U.card + 1 := by
    have hempty : cacheKeys [] = (∅ : Finset String) := rfl
    rw [loopMeasure, hempty]
    simp only [Finset.sdiff_empty, Finset.inter_empty, Finset.card_empty]
    omega
  have hsome := fetchLoop_isSome hclosed hfU hmeas
  rw [fetch_workshop_details_with_dependencies]
  cases heq : fetchLoop svc (2 * U.card + 1) [] file_ids.dedup with
  | none =>
    rw [heq] at hsome
    cases hsome
  | some pr =>
    rcases pr with ⟨result, trace⟩
    refine ⟨result, trace, rfl, ?_⟩
    have hroots' : ∀ k ∈ file_ids.dedup, Reaches svc file_ids k := by
      intro k hk
      exact Reaches.root (List.mem_dedup.mp hk)
    rcases fetchLoop_correct heq (fun k hk => absurd hk (List.not_mem_nil k))
        hroots' (fun k hk => absurd hk (List.not_mem_nil k)) with ⟨ha, hb, hc⟩
    intro k
    constructor
    · exact hc k
    · intro hreach
      induction hreach with
      | root hk => exact ha _ (Or.inr (List.mem_dedup.mpr hk))
      | child _ hcid ih => exact hb _ ih _ hcid

/-- Claim C5, witness: the cyclic graph A→B→A resolved from root {A}
terminates and its result keys are exactly the reachable set; concretely the
run returns keys ["A", "B"], each fetched once. -/
theorem claim_C5_closure_terminates_witness :
    (∀ x ∈ ["A"], x ∈ ({"A", "B"} : Finset String)) ∧
    (∀ id ∈ ({"A", "B"} : Finset String),
      ∀ c ∈ childIdsOfItem (svcAB id), c ∈ ({"A", "B"} : Finset String)) ∧
    fetch_workshop_details_with_dependencies svcAB 5 ["A"] =
      some ([("A", svcAB "A"), ("B", svcAB "B")], ["A", "B"]) ∧
    (∃ result trace,
      fetch_workshop_details_with_dependencies svcAB
          (2 * ({"A", "B"} : Finset String).card + 1) ["A"] =
        some (result, trace) ∧
      ∀ k, k ∈ result.map Prod.fst ↔ Reaches svcAB ["A"] k) := by
  refine ⟨by decide, by decide, by decide, ?_⟩
  exact claim_C5_closure_terminates_and_is_reachable_set svcAB ["A"] {"A", "B"}
    (by decide) (by decide)

/-! ## Reconciliation engine (`main.rs`)

The import diff loop, the update classification loop, the presentation
sorts and the download-execution loop. Collaborators: the hash `h`, base64
`b64` and local collection `collection` (as in the checksum engine),
`str::to_lowercase` as `lower`, `chrono`'s `DateTime::from_timestamp`
(partial on out-of-range seconds) as `from_timestamp`, and
`get_local_created_timestamp` as the oracle `created` (timestamps as
integers on one common time line, normalized to UTC). -/

/-- Embeds the import-mode diff loop (`main.rs` lines 46-77). For each
manifest entry: no checksum ⇒ schedule with "No comparison checksum";
otherwise compare with `calculate_local_checksum` — equal ⇒ `continue`
(skip), different ⇒ schedule with the mismatch rationale carrying both
checksums, no local version ⇒ schedule with "No local version". The pushed
entry is `entry_clone`, which still carries its manifest checksum. -/
def import_diff (h : List Nat → List Nat) (b64 : List Nat → String)
    (collection : String → Option FsTree) :
    List Mod → Except Error (List (Mod × String))
  | [] => .ok []
  | entry :: rest =>
    match entry.checksum with
    | none =>
      (import_diff h b64 collection rest).map
        (fun tail => (entry, "No comparison checksum") :: tail)
    | some checksum =>
      match calculate_local_checksum h b64 collection entry.id with
      | .error e => .error e
      | .ok (some local_checksum) =>
        if local_checksum = checksum then
          import_diff h b64 collection rest
        else
          (import_diff h b64 collection rest).map
            (fun tail => (entry,
              "Checksum mismatch - " ++ local_checksum ++ " local <=> import "
                ++ checksum) :: tail)
      | .ok none =>
        (import_diff h b64 collection rest).map
          (fun tail => (entry, "No local version") :: tail)

/-- Embeds the update-mode classification loop (`main.rs` lines 137-167):
for each resolved entry, full details are compared by timestamp
(`DateTime::from_timestamp` failing aborts with an internal error; a
strictly newer remote timestamp, or a missing local creation time,
schedules a download; otherwise the entry is up-to-date), and a
`MissingItem` is recorded as an error id. Returns
`(ids_with_error, ids_to_download, ids_to_ignore)` in iteration order. -/
def update_classify (from_timestamp : Int → Option Int)
    (created : String → Except Error (Option Int)) :
    List (String × GetPublishedFileDetailsResponseItem) →
    Except Error (List String × List (String × PublishedFileDetails × Int × Option Int)
      × List (String × PublishedFileDetails))
  | [] => .ok ([], [], [])
  | (id, response) :: rest =>
    match response with
    | .FileDetails fd =>
      match from_timestamp fd.time_updated with
      | none => .error (.Internal "error constructing timestamp")
      | some remote_ts =>
        match created id with
        | .error e => .error e
        | .ok (some local_ts) =>
          if remote_ts > local_ts then
            (update_classify from_timestamp created rest).map
              (fun r => (r.1, (id, fd, remote_ts, some local_ts) :: r.2.1, r.2.2))
          else
            (update_classify from_timestamp created rest).map
              (fun r => (r.1, r.2.1, (id, fd) :: r.2.2))
        | .ok none =>
          (update_classify from_timestamp created rest).map
            (fun r => (r.1, (id, fd, remote_ts, none) :: r.2.1, r.2.2))
    | .MissingItem _ _ =>
      (update_classify from_timestamp created rest).map
        (fun r => (id :: r.1, r.2.1, r.2.2))

/-- Embeds `ids_to_download.sort_unstable_by_key(|(_, fd, _, _)|
fd.title.to_lowercase())` (`main.rs` line 181). -/
def sort_ids_to_download (lower : String → String)
    (ids_to_download : List (String × PublishedFileDetails × Int × Option Int)) :
    List (String × PublishedFileDetails × Int × Option Int) :=
  sortLe (fun a b => decide (lower a.2.1.title ≤ lower b.2.1.title)) ids_to_download

/-- Embeds `ids_to_ignore.sort_unstable_by_key(|(_, fd)|
fd.title.to_lowercase())` (`main.rs` line 182). -/
def sort_ids_to_ignore (lower : String → String)
    (ids_to_ignore : List (String × PublishedFileDetails)) :
    List (String × PublishedFileDetails) :=
  sortLe (fun a b => decide (lower a.2.title ≤ lower b.2.title)) ids_to_ignore

/-- The display title of a manifest entry as presented by import mode
(`entry.0.name` with `"<no name>"`-style fallback; for ordering purposes the
specification's fallback is the id). -/
def display_title (m : Mod) : String := m.name.getD m.id

/-- Per-entry outcomes of the effectful calls made by the download loop,
for one batch run: `spawn_result` is the outcome of
`command::download_workshop_item` (spawn), `wait_result` of
`WorkerProcess::wait` on that entry's helper, `copy_result` of
`command::copy_downloaded_workshop_item`, and `checksum_result` of
`command::calculate_local_checksum` on the freshly copied content. -/
structure DownloadEnv where
  spawn_result : String → Except Error Unit
  wait_result : String → Except Error Unit
  copy_result : String → Except Error Unit
  checksum_result : String → Except Error (Option String)

/-- Embeds the body of `fn download` (`main.rs` lines 227-267) with its
`errors` counter. Returns the list of entry ids whose loop iteration was
entered (i.e. whose spawn was attempted), paired with the outcome: `.ok`
carries the final reported error count, `.error` models a `?` propagation
that aborts the whole batch. `expect("dir should exist")` (a panic) is
embedded as an aborting internal error. -/
def download_loop (env : DownloadEnv) (ignore_checksum : Bool) :
    List Mod → Nat → List String × Except Error Nat
  | [], errors => ([], .ok errors)
  | entry :: rest, errors =>
    match env.spawn_result entry.id with
    | .error e => ([entry.id], .error e)
    | .ok _ =>
      match env.wait_result entry.id with
      | .error _ =>
        let r := download_loop env ignore_checksum rest (errors + 1)
        (entry.id :: r.1, r.2)
      | .ok _ =>
        match env.copy_result entry.id with
        | .error e => ([entry.id], .error e)
        | .ok _ =>
          if ignore_checksum then
            let r := download_loop env ignore_checksum rest errors
            (entry.id :: r.1, r.2)
          else
            match env.checksum_result entry.id with
            | .error e => ([entry.id], .error e)
            | .ok none => ([entry.id], .error (.Internal "dir should exist"))
            | .ok (some checksum) =>
              match entry.checksum with
              | some import_cs =>
                if checksum = import_cs then
                  let r := download_loop env ignore_checksum rest errors
                  (entry.id :: r.1, r.2)
                else
                  let r := download_loop env ignore_checksum rest (errors + 1)
                  (entry.id :: r.1, r.2)
              | none =>
                let r := download_loop env ignore_checksum rest errors
                (entry.id :: r.1, r.2)

/-- Embeds `fn download(entries_to_download, ignore_checksum)`
(`main.rs` line 227): run the loop with the error counter starting at 0. -/
def download (env : DownloadEnv) (entries_to_download : List Mod)
    (ignore_checksum : Bool) : List String × Except Error Nat :=
  download_loop env ignore_checksum entries_to_download 0

/-! ### Claim C6: import-mode reconciliation decisions -/

/-- Claim C6: in import mode, each manifest entry is decided as follows —
no checksum supplied ⇒ scheduled with rationale "No comparison checksum";
checksum supplied and a local copy with the same checksum ⇒ skipped;
checksum supplied and a local copy with a different checksum ⇒ scheduled
with a rationale carrying both checksums; checksum supplied and no local
copy ⇒ scheduled with rationale "No local version". -/
theorem claim_C6_import_decisions (h : List Nat → List Nat)
    (b64 : List Nat → String) (collection : String → Option FsTree)
    (entry : Mod) (rest : List Mod) :
    (entry.checksum = none →
      import_diff h b64 collection (entry :: rest) =
        (import_diff h b64 collection rest).map
          (fun tail => (entry, "No comparison checksum") :: tail)) ∧
    (∀ cs lc, entry.checksum = some cs →
      calculate_local_checksum h b64 collection entry.id = .ok (some lc) →
      lc = cs →
      import_diff h b64 collection (entry :: rest) =
        import_diff h b64 collection rest) ∧
    (∀ cs lc, entry.checksum = some cs →
      calculate_local_checksum h b64 collection entry.id = .ok (some lc) →
      lc ≠ cs →
      import_diff h b64 collection (entry :: rest) =
        (import_diff h b64 collection rest).map
          (fun tail => (entry,
            "Checksum mismatch - " ++ lc ++ " local <=> import " ++ cs) :: tail)) ∧
    (∀ cs, entry.checksum = some cs →
      calculate_local_checksum h b64 collection entry.id = .ok none →
      import_diff h b64 collection (entry :: rest) =
        (import_diff h b64 collection rest).map
          (fun tail => (entry, "No local version") :: tail)) := by
  refine ⟨?_, ?_, ?_, ?_⟩
  · intro hnone
    rw [import_diff, hnone]
  · intro cs lc hcs hlocal hmatch
    simp only [import_diff, hcs, hlocal, if_pos hmatch]
  · intro cs lc hcs hlocal hmismatch
    simp only [import_diff, hcs, hlocal, if_neg hmismatch]
  · intro cs hcs hlocal
    rw [import_diff, hcs, hlocal]

/-- Fixed collaborators for the reconciliation witnesses: every directory
hashes to "X". -/
def hW : List Nat → List Nat := fun _ => []

def b64W : List Nat → String := fun _ => "X"

/-- A collection in which items "1" and "2" are locally present. -/
def collW : String → Option FsTree := fun id =>
  if id = "1" then some (.dir [])
  else if id = "2" then some (.dir [])
  else none

/-- Claim C6, witness: the four decision cases at concrete inputs — entry
"3" without checksum is always scheduled; entry "1" with matching local
checksum "X" is skipped; entry "2" with differing checksum "Y" is scheduled
with a rationale carrying both; entry "4" with no local copy is scheduled
with "No local version". -/
theorem claim_C6_import_decisions_witness :
    import_diff hW b64W collW [⟨"3", none, none⟩] =
      .ok [(⟨"3", none, none⟩, "No comparison checksum")] ∧
    import_diff hW b64W collW [⟨"1", none, some "X"⟩] = .ok [] ∧
    import_diff hW b64W collW [⟨"2", none, some "Y"⟩] =
      .ok [(⟨"2", none, some "Y"⟩, "Checksum mismatch - X local <=> import Y")] ∧
    import_diff hW b64W collW [⟨"4", none, some "X"⟩] =
      .ok [(⟨"4", none, some "X"⟩, "No local version")] := by
  have hcalc1 : calculate_local_checksum hW b64W collW "1" = .ok (some "X") := by
    simp [calculate_local_checksum, collW, calculate_checksum, canon, canonEntries,
      sortEntries, sortLe, plainWalk, plainWalkEntries, sha256digest, b64W,
      Except.map]
  have hcalc2 : calculate_local_checksum hW b64W collW "2" = .ok (some "X") := by
    simp [calculate_local_checksum, collW, calculate_checksum, canon, canonEntries,
      sortEntries, sortLe, plainWalk, plainWalkEntries, sha256digest, b64W,
      Except.map]
  have hcalc4 : calculate_local_checksum hW b64W collW "4" = .ok none := by
    simp [calculate_local_checksum, collW]
  refine ⟨?_, ?_, ?_, ?_⟩
  · exact ((claim_C6_import_decisions hW b64W collW ⟨"3", none, none⟩ []).1 rfl).trans rfl
  · exact ((claim_C6_import_decisions hW b64W collW ⟨"1", none, some "X"⟩ []).2.1
      "X" "X" rfl hcalc1 rfl).trans rfl
  · exact ((claim_C6_import_decisions hW b64W collW ⟨"2", none, some "Y"⟩ []).2.2.1
      "Y" "X" rfl hcalc2 (by decide)).trans rfl
  · exact ((claim_C6_import_decisions hW b64W collW ⟨"4", none, some "X"⟩ []).2.2.2
      "X" rfl hcalc4).trans rfl

/-! ### Claim C7: update-mode reconciliation decisions -/

theorem except_map_ok {α β : Type _} {f : α → β} {x : Except Error α} {b : β}
    (h : x.map f = .ok b) : ∃ a, x = .ok a ∧ b = f a := by
  cases x with
  | error e => cases h
  | ok a => exact ⟨a, rfl, (Except.ok.inj h).symm⟩

/-- Whether a resolved entry is a `MissingItem`. -/
def is_missing_item : GetPublishedFileDetailsResponseItem → Bool
  | .MissingItem _ _ => true
  | .FileDetails _ => false

/-- The download decision for one update-mode entry, as described by the
specification: full details are scheduled when there is no local creation
timestamp, or when the remote last-updated timestamp is strictly newer. -/
def update_download_row (from_timestamp : Int → Option Int)
    (created : String → Except Error (Option Int))
    (p : String × GetPublishedFileDetailsResponseItem) :
    Option (String × PublishedFileDetails × Int × Option Int) :=
  match p.2 with
  | .FileDetails fd =>
    match from_timestamp fd.time_updated with
    | some remote_ts =>
      match created p.1 with
      | .ok (some local_ts) =>
        if remote_ts > local_ts then some (p.1, fd, remote_ts, some local_ts) else none
      | .ok none => some (p.1, fd, remote_ts, none)
      | .error _ => none
    | none => none
  | .MissingItem _ _ => none

/-- The up-to-date decision for one update-mode entry: full details whose
remote timestamp is equal to or older than the local creation timestamp. -/
def update_ignore_row (from_timestamp : Int → Option Int)
    (created : String → Except Error (Option Int))
    (p : String × GetPublishedFileDetailsResponseItem) :
    Option (String × PublishedFileDetails) :=
  match p.2 with
  | .FileDetails fd =>
    match from_timestamp fd.time_updated with
    | some remote_ts =>
      match created p.1 with
      | .ok (some local_ts) =>
        if remote_ts > local_ts then none else some (p.1, fd)
      | .ok none => none
      | .error _ => none
    | none => none
  | .MissingItem _ _ => none

theorem update_download_row_shape {ft : Int → Option Int}
    {created : String → Except Error (Option Int)}
    {p : String × GetPublishedFileDetailsResponseItem}
    {q : String × PublishedFileDetails × Int × Option Int}
    (h : update_download_row ft created p = some q) :
    q.1 = p.1 ∧ is_missing_item p.2 = false := by
  rcases p with ⟨id, response⟩
  simp only [update_download_row] at h
  repeat' split at h
  all_goals cases h
  all_goals exact ⟨rfl, rfl⟩

theorem update_ignore_row_shape {ft : Int → Option Int}
    {created : String → Except Error (Option Int)}
    {p : String × GetPublishedFileDetailsResponseItem}
    {q : String × PublishedFileDetails}
    (h : update_ignore_row ft created p = some q) :
    q.1 = p.1 ∧ is_missing_item p.2 = false := by
  rcases p with ⟨id, response⟩
  simp only [update_ignore_row] at h
  repeat' split at h
  all_goals cases h
  all_goals exact ⟨rfl, rfl⟩

/-- On success, the three output lists of the update classification are
exactly the missing ids, the download rows and the up-to-date rows of the
input, in iteration order. -/
theorem update_classify_characterization (ft : Int → Option Int)
    (created : String → Except Error (Option Int)) :
    ∀ (l : List (String × GetPublishedFileDetailsResponseItem))
      {errs : List String} {dls : List (String × PublishedFileDetails × Int × Option Int)}
      {ign : List (String × PublishedFileDetails)},
      update_classify ft created l = .ok (errs, dls, ign) →
      errs = (l.filter (fun p => is_missing_item p.2)).map Prod.fst ∧
      dls = l.filterMap (update_download_row ft created) ∧
      ign = l.filterMap (update_ignore_row ft created) := by
  intro l
  induction l with
  | nil =>
    intro errs dls ign heq
    cases heq
    exact ⟨rfl, rfl, rfl⟩
  | cons p rest ih =>
    intro errs dls ign heq
    rcases p with ⟨id, response⟩
    cases response with
    | MissingItem r pid =>
      simp only [update_classify] at heq
      rcases except_map_ok heq with ⟨⟨e, d, i⟩, hrest, hb⟩
      rcases ih hrest with ⟨he, hd, hi⟩
      obtain ⟨h1, h2, h3⟩ : errs = id :: e ∧ dls = d ∧ ign = i := by simpa using hb
      subst h1
      subst h2
      subst h3
      refine ⟨?_, ?_, ?_⟩
      · simp [List.filter_cons, is_missing_item, he]
      · simp [List.filterMap_cons, update_download_row, hd]
      · simp [List.filterMap_cons, update_ignore_row, hi]
    | FileDetails fd =>
      simp only [update_classify] at heq
      cases hft : ft fd.time_updated with
      | none =>
        rw [hft] at heq
        cases heq
      | some rts =>
        rw [hft] at heq
        cases hcr : created id with
        | error e2 =>
          rw [hcr] at heq
          cases heq
        | ok opt =>
          rw [hcr] at heq
          cases opt with
          | none =>
            rcases except_map_ok heq with ⟨⟨e, d, i⟩, hrest, hb⟩
            rcases ih hrest with ⟨he, hd, hi⟩
            obtain ⟨h1, h2, h3⟩ : errs = e ∧ dls = (id, fd, rts, none) :: d ∧ ign = i := by
              simpa using hb
            subst h1
            subst h2
            subst h3
            refine ⟨?_, ?_, ?_⟩
            · simp [List.filter_cons, is_missing_item, he]
            · simp [List.filterMap_cons, update_download_row, hft, hcr, hd]
            · simp [List.filterMap_cons, update_ignore_row, hft, hcr, hi]
          | some lts =>
            by_cases hgt : rts > lts
            · simp only [if_pos hgt] at heq
              rcases except_map_ok heq with ⟨⟨e, d, i⟩, hrest, hb⟩
              rcases ih hrest with ⟨he, hd, hi⟩
              obtain ⟨h1, h2, h3⟩ :
                  errs = e ∧ dls = (id, fd, rts, some lts) :: d ∧ ign = i := by
                simpa using hb
              subst h1
              subst h2
              subst h3
              refine ⟨?_, ?_, ?_⟩
              · simp [List.filter_cons, is_missing_item, he]
              · simp [List.filterMap_cons, update_download_row, hft, hcr, hgt, hd]
              · simp [List.filterMap_cons, update_ignore_row, hft, hcr, hgt, hi]
            · simp only [if_neg hgt] at heq
              rcases except_map_ok heq with ⟨⟨e, d, i⟩, hrest, hb⟩
              rcases ih hrest with ⟨he, hd, hi⟩
              obtain ⟨h1, h2, h3⟩ : errs = e ∧ dls = d ∧ ign = (id, fd) :: i := by
                simpa using hb
              subst h1
              subst h2
              subst h3
              refine ⟨?_, ?_, ?_⟩
              · simp [List.filter_cons, is_missing_item, he]
              · simp [List.filterMap_cons, update_download_row, hft, hcr, hgt, hd]
              · simp [List.filterMap_cons, update_ignore_row, hft, hcr, hgt, hi]

/-- With pairwise-distinct keys, a key determines its value. -/
theorem keys_nodup_value_eq {γ : Type _} :
    ∀ {l : List (String × γ)}, (l.map Prod.fst).Nodup →
      ∀ {k : String} {a b : γ}, (k, a) ∈ l → (k, b) ∈ l → a = b := by
  intro l
  induction l with
  | nil =>
    intro _ k a b ha
    cases ha
  | cons p rest ih =>
    rcases p with ⟨q, c⟩
    intro hnd k a b ha hb
    rw [List.map_cons] at hnd
    rcases List.pairwise_cons.mp hnd with ⟨hhead, htail⟩
    rcases List.mem_cons.mp ha with hha | hha <;> rcases List.mem_cons.mp hb with hhb | hhb
    · cases hha
      cases hhb
      rfl
    · cases hha
      exact absurd rfl (hhead q (List.mem_map.mpr ⟨(q, b), hhb, rfl⟩))
    · cases hhb
      exact absurd rfl (hhead q (List.mem_map.mpr ⟨(q, a), hha, rfl⟩))
    · exact ih htail hha hhb

/-- Claim C7: on a successful update classification over entries with
distinct ids, the download schedule is exactly the full-details entries with
no local creation timestamp or a strictly newer remote timestamp, the
up-to-date list is exactly the remaining full-details entries (remote
timestamp equal or older), and every `MissingItem` entry is reported as an
error id and appears in neither of the other two lists. -/
theorem claim_C7_update_decisions (ft : Int → Option Int)
    (created : String → Except Error (Option Int))
    (l : List (String × GetPublishedFileDetailsResponseItem))
    (errs : List String) (dls : List (String × PublishedFileDetails × Int × Option Int))
    (ign : List (String × PublishedFileDetails))
    (hnd : (l.map Prod.fst).Nodup)
    (heq : update_classify ft created l = .ok (errs, dls, ign)) :
    errs = (l.filter (fun p => is_missing_item p.2)).map Prod.fst ∧
    dls = l.filterMap (update_download_row ft created) ∧
    ign = l.filterMap (update_ignore_row ft created) ∧
    (∀ id r pid, (id, .MissingItem r pid) ∈ l →
      id ∈ errs ∧ id ∉ dls.map Prod.fst ∧ id ∉ ign.map Prod.fst) := by
  rcases update_classify_characterization ft created l heq with ⟨he, hd, hi⟩
  refine ⟨he, hd, hi, ?_⟩
  intro id r pid hmem
  refine ⟨?_, ?_, ?_⟩
  · rw [he]
    exact List.mem_map.mpr ⟨(id, .MissingItem r pid),
      List.mem_filter.mpr ⟨hmem, rfl⟩, rfl⟩
  · rw [hd]
    intro hin
    rcases List.mem_map.mp hin with ⟨q, hq, hq1⟩
    rcases List.mem_filterMap.mp hq with ⟨p, hp, hrow⟩
    rcases update_download_row_shape hrow with ⟨hq1', hmiss⟩
    rcases p with ⟨pid2, item⟩
    have hpid : pid2 = id := by
      rw [← hq1]
      exact hq1'.symm
    subst hpid
    have hitem := keys_nodup_value_eq hnd hmem hp
    rw [← hitem] at hmiss
    cases hmiss
  · rw [hi]
    intro hin
    rcases List.mem_map.mp hin with ⟨q, hq, hq1⟩
    rcases List.mem_filterMap.mp hq with ⟨p, hp, hrow⟩
    rcases update_ignore_row_shape hrow with ⟨hq1', hmiss⟩
    rcases p with ⟨pid2, item⟩
    have hpid : pid2 = id := by
      rw [← hq1]
      exact hq1'.symm
    subst hpid
    have hitem := keys_nodup_value_eq hnd hmem hp
    rw [← hitem] at hmiss
    cases hmiss

/-- Concrete update-mode scenario: `from_timestamp` is the identity,
creation timestamps are 5 for "old", 20 for "new", 10 for "eq", and absent
otherwise; every remote `time_updated` is 10. -/
def ftW : Int → Option Int := fun i => some i

def createdW : String → Except Error (Option Int) := fun id =>
  if id = "old" then .ok (some 5)
  else if id = "new" then .ok (some 20)
  else if id = "eq" then .ok (some 10)
  else .ok none

def fdOldW : PublishedFileDetails := ⟨"old", "Old", 10, none⟩

def fdNewW : PublishedFileDetails := ⟨"new", "New", 10, none⟩

def fdEqW : PublishedFileDetails := ⟨"eq", "Eq", 10, none⟩

def fdNoW : PublishedFileDetails := ⟨"nolocal", "NoLocal", 10, none⟩

def updateListW : List (String × GetPublishedFileDetailsResponseItem) :=
  [("old", .FileDetails fdOldW), ("new", .FileDetails fdNewW),
   ("eq", .FileDetails fdEqW), ("nolocal", .FileDetails fdNoW),
   ("5", .MissingItem 9 "5")]

/-- Claim C7, witness: the concrete scenario schedules "old" (remote 10 >
local 5) and "nolocal" (no local timestamp), marks "new" (10 < 20) and "eq"
(10 = 10) up-to-date, and reports the missing id "5" as an error excluded
from both lists. -/
theorem claim_C7_update_decisions_witness :
    (updateListW.map Prod.fst).Nodup ∧
    update_classify ftW createdW updateListW =
      .ok (["5"],
        [("old", fdOldW, 10, some 5), ("nolocal", fdNoW, 10, none)],
        [("new", fdNewW), ("eq", fdEqW)]) ∧
    (["5"] = (updateListW.filter (fun p => is_missing_item p.2)).map Prod.fst ∧
     [("old", fdOldW, 10, some 5), ("nolocal", fdNoW, 10, none)] =
       updateListW.filterMap (update_download_row ftW createdW) ∧
     [("new", fdNewW), ("eq", fdEqW)] =
       updateListW.filterMap (update_ignore_row ftW createdW) ∧
     (∀ id r pid, (id, .MissingItem r pid) ∈ updateListW →
       id ∈ ["5"] ∧
       id ∉ [("old", fdOldW, 10, some 5), ("nolocal", fdNoW, 10, none)].map Prod.fst ∧
       id ∉ [("new", fdNewW), ("eq", fdEqW)].map Prod.fst)) := by
  have hnd : (updateListW.map Prod.fst).Nodup := by decide
  have heq : update_classify ftW createdW updateListW =
      .ok (["5"],
        [("old", fdOldW, 10, some 5), ("nolocal", fdNoW, 10, none)],
        [("new", fdNewW), ("eq", fdEqW)]) := by rfl
  exact ⟨hnd, heq, claim_C7_update_decisions ftW createdW updateListW _ _ _ hnd heq⟩

/-! ### Claim C8: presentation ordering -/

/-- The `str::to_lowercase` collaborator used by concrete runs; on the
ASCII-lowercase titles appearing in them it is the identity. -/
def lowerW : String → String := fun s => s

/-- Claim C8, counterexample: the claim says both reconciliation modes sort
their presented lists case-insensitively by display title. Import mode does
not sort at all: a manifest listing titles "b" then "a" (both without
checksums) is presented in manifest order, which is not sorted by title. -/
theorem claim_C8_counterexample :
    import_diff hW b64W collW
        [⟨"idb", some "b", none⟩, ⟨"ida", some "a", none⟩] =
      .ok [(⟨"idb", some "b", none⟩, "No comparison checksum"),
           (⟨"ida", some "a", none⟩, "No comparison checksum")] ∧
    ¬ List.Pairwise
        (fun x y => lowerW (display_title x.1) ≤ lowerW (display_title y.1))
        [(⟨"idb", some "b", none⟩, "No comparison checksum"),
         (⟨"ida", some "a", none⟩, "No comparison checksum")] := by
  constructor
  · rfl
  · intro hp
    rcases List.pairwise_cons.mp hp with ⟨hhead, _⟩
    have hle : ("b" : String) ≤ "a" :=
      hhead _ (List.mem_singleton.mpr rfl)
    rw [String.le_iff_toList_le] at hle
    exact absurd hle (by decide)

/-- Claim C8, amended: only update mode sorts its presentation — both its
download schedule and its up-to-date list are sorted case-insensitively by
title (a sorted permutation of the classified rows; titles are always known
there, so no id fallback is involved); import mode presents its schedule in
manifest order (its scheduled entries are a sublist of the manifest). -/
theorem claim_C8_update_sorted_import_manifest_order :
    (∀ (lower : String → String)
        (l : List (String × PublishedFileDetails × Int × Option Int)),
      (sort_ids_to_download lower l).Perm l ∧
      (sort_ids_to_download lower l).Pairwise
        (fun a b => lower a.2.1.title ≤ lower b.2.1.title)) ∧
    (∀ (lower : String → String) (l : List (String × PublishedFileDetails)),
      (sort_ids_to_ignore lower l).Perm l ∧
      (sort_ids_to_ignore lower l).Pairwise
        (fun a b => lower a.2.title ≤ lower b.2.title)) ∧
    (∀ (h : List Nat → List Nat) (b64 : List Nat → String)
        (collection : String → Option FsTree) (manifest : List Mod)
        (res : List (Mod × String)),
      import_diff h b64 collection manifest = .ok res →
      (res.map Prod.fst).Sublist manifest) := by
  refine ⟨?_, ?_, ?_⟩
  · intro lower l
    constructor
    · exact sortLe_perm _ l
    · have := @pairwise_sortLe _
        (fun a b : String × PublishedFileDetails × Int × Option Int =>
          decide (lower a.2.1.title ≤ lower b.2.1.title)) l
        (fun x y => by
          simp only [decide_eq_true_eq]
          exact le_total _ _)
        (fun x y z => by
          simp only [decide_eq_true_eq]
          exact le_trans)
      refine this.imp ?_
      intro a b hab
      simpa using hab
  · intro lower l
    constructor
    · exact sortLe_perm _ l
    · have := @pairwise_sortLe _
        (fun a b : String × PublishedFileDetails =>
          decide (lower a.2.title ≤ lower b.2.title)) l
        (fun x y => by
          simp only [decide_eq_true_eq]
          exact le_total _ _)
        (fun x y z => by
          simp only [decide_eq_true_eq]
          exact le_trans)
      refine this.imp ?_
      intro a b hab
      simpa using hab
  · intro h b64 collection manifest
    induction manifest with
    | nil =>
      intro res heq
      cases heq
      exact List.Sublist.refl []
    | cons entry rest ih =>
      intro res heq
      simp only [import_diff] at heq
      cases hck : entry.checksum with
      | none =>
        simp only [hck] at heq
        rcases except_map_ok heq with ⟨tail, hrest, hb⟩
        subst hb
        exact List.Sublist.cons₂ entry (ih tail hrest)
      | some cs =>
        simp only [hck] at heq
        cases hcalc : calculate_local_checksum h b64 collection entry.id with
        | error e =>
          rw [hcalc] at heq
          cases heq
        | ok opt =>
          simp only [hcalc] at heq
          cases opt with
          | none =>
            rcases except_map_ok heq with ⟨tail, hrest, hb⟩
            subst hb
            exact List.Sublist.cons₂ entry (ih tail hrest)
          | some lc =>
            by_cases hmatch : lc = cs
            · simp only [if_pos hmatch] at heq
              exact List.Sublist.cons entry (ih res heq)
            · simp only [if_neg hmatch] at heq
              rcases except_map_ok heq with ⟨tail, hrest, hb⟩
              subst hb
              exact List.Sublist.cons₂ entry (ih tail hrest)

/-- Claim C8, witness: the amended statement at concrete inputs — update
rows with titles "B" and "A" are presented as a sorted permutation, and a
concrete import run presents its schedule as a sublist of the manifest. -/
theorem claim_C8_update_sorted_witness :
    (sort_ids_to_download lowerW
        [("b1", (⟨"b1", "B", 0, none⟩ : PublishedFileDetails), (0 : Int), (none : Option Int)), ("a1", (⟨"a1", "A", 0, none⟩ : PublishedFileDetails), (0 : Int), (none : Option Int))]).Perm
      [("b1", (⟨"b1", "B", 0, none⟩ : PublishedFileDetails), (0 : Int), (none : Option Int)), ("a1", (⟨"a1", "A", 0, none⟩ : PublishedFileDetails), (0 : Int), (none : Option Int))] ∧
    (sort_ids_to_download lowerW
        [("b1", (⟨"b1", "B", 0, none⟩ : PublishedFileDetails), (0 : Int), (none : Option Int)), ("a1", (⟨"a1", "A", 0, none⟩ : PublishedFileDetails), (0 : Int), (none : Option Int))]).Pairwise
      (fun a b => lowerW a.2.1.title ≤ lowerW b.2.1.title) ∧
    (([((⟨"3", none, none⟩ : Mod), "No comparison checksum")].map Prod.fst).Sublist
      [(⟨"3", none, none⟩ : Mod)]) := by
  refine ⟨?_, ?_, ?_⟩
  · exact (claim_C8_update_sorted_import_manifest_order.1 lowerW _).1
  · exact (claim_C8_update_sorted_import_manifest_order.1 lowerW _).2
  · exact claim_C8_update_sorted_import_manifest_order.2.2 hW b64W collW
      [⟨"3", none, none⟩] _ rfl

/-! ### Claim C2: download batch failure handling -/

/-- A batch environment in which the helper for id "2" fails to spawn and
everything else succeeds. -/
def envSpawnFail : DownloadEnv where
  spawn_result := fun id => if id = "2" then .error .NotInitialised else .ok ()
  wait_result := fun _ => .ok ()
  copy_result := fun _ => .ok ()
  checksum_result := fun _ => .ok (some "X")

/-- Claim C2, counterexample: the claim says a spawn failure is recorded as
a per-entry error and the batch continues. It is not: `download` propagates
a spawn failure with `?`, aborting the batch — for three scheduled ids where
the second fails to spawn, only ids "1" and "2" are ever attempted (the
third is not), and the run ends with a propagated error instead of a
reported error count of 1. -/
theorem claim_C2_counterexample :
    download envSpawnFail
        [⟨"1", none, none⟩, ⟨"2", none, none⟩, ⟨"3", none, none⟩] true =
      (["1", "2"], .error .NotInitialised) ∧
    "3" ∉ (["1", "2"] : List String) := by
  constructor
  · rfl
  · decide

theorem download_loop_wait_failures (env : DownloadEnv) :
    ∀ (entries : List Mod) (errors : Nat),
      (∀ e ∈ entries, env.spawn_result e.id = .ok ()) →
      (∀ e ∈ entries, env.copy_result e.id = .ok ()) →
      download_loop env true entries errors =
        (entries.map Mod.id,
          .ok (errors + entries.countP (fun e => !(env.wait_result e.id).isOk))) := by
  intro entries
  induction entries with
  | nil =>
    intro errors _ _
    simp [download_loop]
  | cons e rest ih =>
    intro errors hspawn hcopy
    have hsp := hspawn e (List.mem_cons_self e rest)
    have hcp := hcopy e (List.mem_cons_self e rest)
    have ihr := fun err => ih err
      (fun x hx => hspawn x (List.mem_cons_of_mem _ hx))
      (fun x hx => hcopy x (List.mem_cons_of_mem _ hx))
    cases hw : env.wait_result e.id with
    | error err =>
      simp only [download_loop, hsp, hw, ihr (errors + 1), List.map_cons,
        List.countP_cons, hw, Except.isOk, Bool.not_false, if_pos,
        Prod.mk.injEq, Except.ok.injEq]
      refine ⟨trivial, ?_⟩
      simp [hw, Except.isOk, Except.toBool]
      omega
    | ok u =>
      simp only [download_loop, hsp, hw, hcp, if_pos, ihr errors, List.map_cons,
        List.countP_cons, Prod.mk.injEq, Except.ok.injEq]
      refine ⟨trivial, ?_⟩
      simp [hw, Except.isOk, Except.toBool]

/-- Claim C2, amended: in the download-execution loop a per-entry *wait*
failure (the helper exits non-zero) is recorded as an error for that entry
and processing continues with the remaining entries — when every spawn and
copy succeeds, every scheduled id is attempted and the reported error count
is the number of entries whose wait failed. A *spawn* failure, by contrast,
aborts the batch (see the counterexample). Stated for update-mode batches
(`ignore_checksum = true`), isolating process errors from checksum
verification. -/
theorem claim_C2_wait_failures_per_entry (env : DownloadEnv)
    (entries : List Mod)
    (hspawn : ∀ e ∈ entries, env.spawn_result e.id = .ok ())
    (hcopy : ∀ e ∈ entries, env.copy_result e.id = .ok ()) :
    download env entries true =
      (entries.map Mod.id,
        .ok (entries.countP (fun e => !(env.wait_result e.id).isOk))) := by
  rw [download, download_loop_wait_failures env entries 0 hspawn hcopy, Nat.zero_add]

/-- A batch environment in which every spawn and copy succeeds and only the
helper for id "2" exits non-zero (code 3). -/
def envWaitFail : DownloadEnv where
  spawn_result := fun _ => .ok ()
  wait_result := fun id => if id = "2" then .error (.WorkerExitCode 3) else .ok ()
  copy_result := fun _ => .ok ()
  checksum_result := fun _ => .ok (some "X")

/-- Claim C2, witness: three scheduled ids where the second's helper exits
non-zero — all three are attempted and the final reported error count
is 1. -/
theorem claim_C2_wait_failures_per_entry_witness :
    (∀ e ∈ [(⟨"1", none, none⟩ : Mod), ⟨"2", none, none⟩, ⟨"3", none, none⟩],
      envWaitFail.spawn_result e.id = .ok ()) ∧
    (∀ e ∈ [(⟨"1", none, none⟩ : Mod), ⟨"2", none, none⟩, ⟨"3", none, none⟩],
      envWaitFail.copy_result e.id = .ok ()) ∧
    download envWaitFail
        [⟨"1", none, none⟩, ⟨"2", none, none⟩, ⟨"3", none, none⟩] true =
      (["1", "2", "3"], .ok 1) := by
  have h1 : ∀ e ∈ [(⟨"1", none, none⟩ : Mod), ⟨"2", none, none⟩, ⟨"3", none, none⟩],
      envWaitFail.spawn_result e.id = .ok () := fun e _ => rfl
  have h2 : ∀ e ∈ [(⟨"1", none, none⟩ : Mod), ⟨"2", none, none⟩, ⟨"3", none, none⟩],
      envWaitFail.copy_result e.id = .ok () := fun e _ => rfl
  exact ⟨h1, h2,
    (claim_C2_wait_failures_per_entry envWaitFail _ h1 h2).trans (by rfl)⟩

end Ironworks
